import Mathlib

/-!
Verification development for the `promises-bootloader` repository.

The embedding follows the most complete draft of the source
(`BootLoader`, `Resource`, `buildResolvablePromise` and friends).
It has two layers:

* a construction layer: JavaScript-style dynamic values (`JVal`),
  definition objects as string-keyed association lists, and the faithful
  translation of the `Resource` constructor with its validation order;
* an operational layer: the registry (`_resources` / `_promises`) together
  with a defunctionalized promise heap.  The only continuations the source
  ever attaches to promises are (a) the resolvable "pending slot" promise
  later resolved with a resource's promise (promise adoption), and
  (b) `Promise.all(deps).then(resolveWith)` for a declared resource; these
  become the `link` and `allThen` cell kinds.  Microtask scheduling is an
  explicit interleaving of `micro` actions.
-/

namespace Bootloader

variable {V E : Type}

/-- JavaScript dynamic values, specialized to what the bootloader inspects:
`typeof`, truthiness, `Array.isArray`, and callables.  Producer callables
take the dependency values positionally and either return a value or throw. -/
inductive JVal (V E : Type) where
  | undef
  | nullv
  | boolv (b : Bool)
  | numv (n : Int)
  | str (s : String)
  | fn (f : List V → Except E V)
  | arr (elems : List (JVal V E))

/-- JavaScript truthiness for the modelled values. -/
def JVal.truthy : JVal V E → Bool
  | .undef => false
  | .nullv => false
  | .boolv b => b
  | .numv n => n != 0
  | .str s => !s.isEmpty
  | .fn _ => true
  | .arr _ => true

/-- The `typeof v === 'function'` test. -/
def JVal.isFunction : JVal V E → Bool
  | .fn _ => true
  | _ => false

/-- The `v !== void 0` test, negated: `v === undefined`. -/
def JVal.isUndef : JVal V E → Bool
  | .undef => true
  | _ => false

/-- Conversion of a value to a property key, as JavaScript does when the
value is used in a computed member access (`definition[this.name]`). -/
def JVal.keyOf : JVal V E → String
  | .undef => "undefined"
  | .nullv => "null"
  | .boolv b => if b then "true" else "false"
  | .numv n => toString n
  | .str s => s
  | .fn _ => ""
  | .arr _ => ""

/-- A definition object: a JavaScript object literal is a finite map from
string keys to values; reading an absent key yields `undefined`. -/
def DefObj (V E : Type) := List (String × JVal V E)

/-- Property read on a definition object (`definition.k`). -/
def DefObj.get (d : DefObj V E) (k : String) : JVal V E :=
  match d.find? (fun p => p.1 == k) with
  | none => .undef
  | some p => p.2

/-- Construction-time failure kinds thrown by the `Resource` constructor. -/
inductive ConstructError where
  | invalidResource
  | unnamedResource
  | invalidRequires
  | invalidProvider
  | invalidUrl
deriving DecidableEq

/-- The fetch mechanism a script/json resource ends up with: the built-in
`fetchScript` / `fetchJson`, or a caller-supplied callable override. -/
inductive FetchMech (V E : Type) where
  | builtinScript
  | builtinJson
  | custom (f : JVal V E)

/-- The producer source a constructed Resource carries: exactly one of an
explicit function field, a script URL, or a json URL. -/
inductive Provider (V E : Type) where
  | explicitFn (f : List V → Except E V)
  | script (url : String) (mech : FetchMech V E)
  | json (url : String) (mech : FetchMech V E)

/-- A validated Resource as produced by the constructor: its name, the
normalized `requires` array (raw elements, as the source stores them
without validating the element types), and its resolved producer source. -/
structure ResourceR (V E : Type) where
  name : String
  requires : List (JVal V E)
  provider : Provider V E

/-- Normalization of the `requires` field, in source order: a string is
wrapped in a one-element array first, then any other falsy value becomes
the empty array, and finally anything that is not an array throws
`InvalidRequiresError`.  Array elements are not inspected. -/
def normRequires (v : JVal V E) : Except ConstructError (List (JVal V E)) :=
  match v with
  | .str s => .ok [.str s]
  | w =>
    if !w.truthy then .ok []
    else match w with
      | .arr xs => .ok xs
      | _ => .error .invalidRequires

/-- The `Resource` constructor, translated statement by statement from the
source: name check, `requires` normalization, the provider/script/json
conflict check, the script branch (with `getScript` override sniffing),
the json branch (with `ajax` override sniffing), and the final callable
check on the provider. -/
def construct (d : DefObj V E) : Except ConstructError (ResourceR V E) :=
  let nameV := d.get "name"
  if !nameV.truthy then .error .unnamedResource
  else
    let name := nameV.keyOf
    match normRequires (d.get "requires") with
    | .error e => .error e
    | .ok requires =>
      let providerRaw := d.get name
      let scriptV := d.get "script"
      let jsonV := d.get "json"
      if !providerRaw.isUndef && (!jsonV.isUndef || !scriptV.isUndef) then
        .error .invalidResource
      else if !scriptV.isUndef then
        match scriptV with
        | .str url =>
          let gs := d.get "getScript"
          let mech := if gs.isFunction then FetchMech.custom gs else .builtinScript
          .ok ⟨name, requires, .script url mech⟩
        | _ => .error .invalidUrl
      else if !jsonV.isUndef then
        match jsonV with
        | .str url =>
          let aj := d.get "ajax"
          let mech := if aj.isFunction then FetchMech.custom aj else .builtinJson
          .ok ⟨name, requires, .json url mech⟩
        | _ => .error .invalidUrl
      else
        match providerRaw with
        | .fn f => .ok ⟨name, requires, .explicitFn f⟩
        | _ => .error .invalidProvider

/-! ## Operational layer: the registry and the promise heap -/

/-- The settled outcome of a promise: a fulfillment value or a rejection
reason. -/
inductive Outcome (V E : Type) where
  | ok (v : V)
  | err (e : E)
deriving DecidableEq

/-- A promise is pending until it settles exactly once. -/
inductive CState (V E : Type) where
  | pending
  | settled (o : Outcome V E)
deriving DecidableEq

/-- Defunctionalized promise cells.  `external` is a resolvable placeholder
built by `buildResolvablePromise`; `link t` is such a placeholder after
`declareResource` called its `resolve` with the resource promise `t`
(promise adoption); `allThen deps owner p` is the promise
`Promise.all(deps).then((vs) => resource.resolveWith(vs))` created for a
declared resource, with the producer closure `p` captured. -/
inductive CKind (V E : Type) where
  | external
  | link (t : Nat)
  | allThen (deps : List Nat) (owner : String) (p : List V → Except E V)

/-- A heap cell: its (defunctionalized) reaction kind and its state. -/
structure Cell (V E : Type) where
  kind : CKind V E
  state : CState V E

/-- A registry entry for a declared resource: its dependency name list,
its producer, and the heap id of its settlement promise. -/
structure REntry (V E : Type) where
  requires : List String
  provider : List V → Except E V
  promise : Nat

/-- The bootloader state: the `_resources` map, the `_promises` map of
outstanding pending slots, and the promise heap.  Both maps are
insertion-ordered association lists, as JavaScript string-keyed objects
are. -/
structure LState (V E : Type) where
  resources : List (String × REntry V E)
  promises : List (String × Nat)
  cells : List (Cell V E)

/-- Lookup in an insertion-ordered map. -/
def lookupA {α : Type} (m : List (String × α)) (k : String) : Option α :=
  match m.find? (fun p => p.1 == k) with
  | some p => some p.2
  | none => none

/-- A freshly constructed BootLoader. -/
def LState.init : LState V E := ⟨[], [], []⟩

/-- Heap read; out-of-range ids read as an inert pending external cell. -/
def LState.getCell (s : LState V E) (i : Nat) : Cell V E :=
  s.cells.getD i ⟨.external, .pending⟩

/-- Kind of a heap cell. -/
def LState.kindOf (s : LState V E) (i : Nat) : CKind V E := (s.getCell i).kind

/-- State of a heap cell. -/
def LState.stateOf (s : LState V E) (i : Nat) : CState V E := (s.getCell i).state

/-- Settle (or otherwise update the state of) cell `i`, keeping its kind. -/
def setSt (s : LState V E) (i : Nat) (st : CState V E) : LState V E :=
  { s with cells := s.cells.set i ⟨(s.getCell i).kind, st⟩ }

/-- Allocation of a fresh pending slot for an undeclared name: a new
resolvable promise cell registered in `_promises` under that name. -/
def extendSlot (s : LState V E) (n : String) : LState V E :=
  { s with promises := s.promises ++ [(n, s.cells.length)],
           cells := s.cells ++ [⟨.external, .pending⟩] }

/-- The method `promiseFor` (`eventualValueOf`): a declared resource's own
promise, else the existing pending slot, else a fresh pending slot that is
registered in `_promises`.  Returns the promise id and the updated state. -/
def promiseFor (s : LState V E) (n : String) : Nat × LState V E :=
  match lookupA s.resources n with
  | some e => (e.promise, s)
  | none =>
    match lookupA s.promises n with
    | some pid => (pid, s)
    | none => (s.cells.length, extendSlot s n)

/-- The `resource.requires.map((name) => this.promiseFor(name))` loop. -/
def promisesFor (s : LState V E) : List String → List Nat × LState V E
  | [] => ([], s)
  | n :: ns =>
    let r := promiseFor s n
    let rest := promisesFor r.2 ns
    (r.1 :: rest.1, rest.2)

/-- The synchronous failure `declareResource` can raise beyond the
constructor's own errors. -/
inductive DeclErr where
  | duplicateName
deriving DecidableEq

/-- Creation of the resource promise
`Promise.all(dependencyPromises).then((vs) => resource.resolveWith(vs))`:
a fresh pending `allThen` cell at the end of the heap. -/
def addResourceCell (s : LState V E) (deps : List Nat) (n : String)
    (p : List V → Except E V) : LState V E :=
  { s with cells := s.cells ++ [⟨.allThen deps n p, .pending⟩] }

/-- Resolution of a matching pending slot with the new resource promise
`rid` and its removal from `_promises` (`this._promises[name].resolve(...)`
followed by `delete this._promises[name]`).  Resolving a promise with
another promise makes it adopt that promise, hence the `link` kind. -/
def settleSlot (s : LState V E) (n : String) (rid : Nat) : LState V E :=
  match lookupA s.promises n with
  | some pid =>
    { s with cells := s.cells.set pid ⟨.link rid, (s.getCell pid).state⟩,
             promises := s.promises.filter (fun q => !(q.1 == n)) }
  | none => s

/-- Registration of the resource in `_resources`. -/
def addEntry (s : LState V E) (n : String) (req : List String)
    (p : List V → Except E V) (rid : Nat) : LState V E :=
  { s with resources := s.resources ++ [(n, ⟨req, p, rid⟩)] }

/-- The registry part of `declareResource`, after the `Resource`
constructor succeeded: the duplicate-name check (which throws before any
mutation), dependency promise collection, creation of the resource promise
`Promise.all(deps).then(...)`, resolution and removal of a matching
pending slot, and registration of the resource. -/
def declareResource (s : LState V E) (n : String) (req : List String)
    (p : List V → Except E V) : Except DeclErr (LState V E) :=
  if (lookupA s.resources n).isSome then .error .duplicateName
  else
    let dres := promisesFor s req
    let rid := dres.2.cells.length
    .ok (addEntry (settleSlot (addResourceCell dres.2 dres.1 n p) n rid) n req p rid)

/-- Turn a producer result into a settlement outcome (a throw rejects, a
return fulfills; a returned promise is already flattened in `Except`). -/
def outcomeOf : Except E V → Outcome V E
  | .ok v => .ok v
  | .error e => .err e

/-- Scan the dependency cells for the first rejected one, in list order,
as `Promise.all`'s fail-fast rejection. -/
def firstRejected (s : LState V E) : List Nat → Option E
  | [] => none
  | d :: ds =>
    match (s.getCell d).state with
    | .settled (.err e) => some e
    | _ => firstRejected s ds

/-- If every dependency cell is fulfilled, the fulfillment values in
dependency order (what `Promise.all` hands to the `then` callback). -/
def allFulfilled (s : LState V E) : List Nat → Option (List V)
  | [] => some []
  | d :: ds =>
    match (s.getCell d).state with
    | .settled (.ok v) =>
      match allFulfilled s ds with
      | some vs => some (v :: vs)
      | none => none
    | _ => none

/-- An observable producer invocation: the owning resource name and the
positional dependency values passed to it. -/
structure Event (V : Type) where
  owner : String
  args : List V
deriving DecidableEq

/-- One microtask step on cell `i`: a pending slot that has been resolved
with a resource promise adopts that promise's settlement once available;
a resource promise rejects with the first rejected dependency's reason, or,
once all dependencies are fulfilled, invokes the producer exactly here and
settles with its outcome.  Settled cells never change again. -/
def stepMicro (s : LState V E) (i : Nat) : LState V E × List (Event V) :=
  match (s.getCell i).state with
  | .settled _ => (s, [])
  | .pending =>
    match (s.getCell i).kind with
    | .external => (s, [])
    | .link t =>
      match (s.getCell t).state with
      | .settled o => (setSt s i (.settled o), [])
      | .pending => (s, [])
    | .allThen deps owner p =>
      match firstRejected s deps with
      | some e => (setSt s i (.settled (.err e)), [])
      | none =>
        match allFulfilled s deps with
        | some vs => (setSt s i (.settled (outcomeOf (p vs))), [⟨owner, vs⟩])
        | none => (s, [])

/-- The observable operations of a run: a (successful or failing)
`declareResource` call, a bare `promiseFor` request, or one microtask. -/
inductive Action (V E : Type) where
  | declare (n : String) (req : List String) (p : List V → Except E V)
  | request (n : String)
  | micro (i : Nat)

/-- Apply one action.  A `declare` that throws leaves the state exactly as
it was (the duplicate-name check precedes every mutation in the source). -/
def stepA (s : LState V E) : Action V E → LState V E × List (Event V)
  | .declare n req p =>
    match declareResource s n req p with
    | .ok s' => (s', [])
    | .error _ => (s, [])
  | .request n => ((promiseFor s n).2, [])
  | .micro i => stepMicro s i

/-- Run a list of actions, accumulating producer-invocation events. -/
def runFrom (s : LState V E) : List (Action V E) → LState V E × List (Event V)
  | [] => (s, [])
  | a :: as =>
    let r := stepA s a
    let rest := runFrom r.1 as
    (rest.1, r.2 ++ rest.2)

/-- The state after running `as` from a fresh BootLoader. -/
def runS (as : List (Action V E)) : LState V E := (runFrom .init as).1

/-- The producer-invocation trace of running `as` from a fresh BootLoader. -/
def runEv (as : List (Action V E)) : List (Event V) := (runFrom .init as).2

/-- How often resource `r`'s producer was invoked in a trace. -/
def countInvoke (r : String) (evs : List (Event V)) : Nat :=
  (evs.filter (fun ev => ev.owner == r)).length

/-- The settlement state of a declared resource (its promise's state), or
`none` if the name is undeclared. -/
def settlementOf (s : LState V E) (n : String) : Option (CState V E) :=
  match lookupA s.resources n with
  | some e => some (s.stateOf e.promise)
  | none => none

/-- The dependency-name list of a declared resource. -/
def requiresOf (s : LState V E) (n : String) : Option (List String) :=
  match lookupA s.resources n with
  | some e => some e.requires
  | none => none

/-- The `undeclared` getter: `Object.keys(this._promises)` in insertion
order. -/
def undeclaredOf (s : LState V E) : List String := s.promises.map (fun q => q.1)

/-- Lexicographic comparison of character lists by code unit, the order
`Array.prototype.sort` uses on strings. -/
def charsLe : List Char → List Char → Bool
  | [], _ => true
  | _ :: _, [] => false
  | c :: cs, d :: ds =>
    if c.toNat < d.toNat then true
    else if d.toNat < c.toNat then false
    else charsLe cs ds

/-- String comparison for the sort. -/
def strLe (a b : String) : Bool := charsLe a.data b.data

/-- Insertion of a string into a sorted list, for `Array.prototype.sort`. -/
def insertSorted (x : String) : List String → List String
  | [] => [x]
  | y :: ys => if strLe x y then x :: y :: ys else y :: insertSorted x ys

/-- The `Object.keys(this._resources).sort()` call (default lexicographic
string sort). -/
def sortStrings : List String → List String
  | [] => []
  | x :: xs => insertSorted x (sortStrings xs)

/-- What a `for...of` loop obtains from the source's iterator object: each
`next()` first shifts the front element off and only then computes
`done: resources.length < 1`, so the consumer stops at `done: true` and
discards that final value. -/
def forOfYields {α : Type} : List α → List α
  | [] => []
  | [_] => []
  | x :: y :: ys => x :: forOfYields (y :: ys)

/-- The names of the resources actually yielded by iterating the
BootLoader (`[Symbol.iterator]` consumed by `for...of`). -/
def iterNames (s : LState V E) : List String :=
  forOfYields (sortStrings (s.resources.map (fun q => q.1)))

/-- One full ascending sweep of microtasks over the current heap. -/
def passActs (s : LState V E) : List (Action V E) :=
  (List.range s.cells.length).map .micro

/-! ## Invariants of reachable states -/

/-- The cell a dependent holds for a name `d`: either `d` is declared and
the cell is `d`'s own resource promise or a pending slot already resolved
with (linked to) it, or `d` is still outstanding and the cell is its
registered pending slot. -/
def DepCell (s : LState V E) (d : String) (c : Nat) : Prop :=
  c < s.cells.length ∧
  ((∃ e, lookupA s.resources d = some e ∧
      (c = e.promise ∨ s.kindOf c = .link e.promise))
   ∨ (lookupA s.promises d = some c ∧ s.kindOf c = .external))

/-- Structural well-formedness of a BootLoader state, preserved by every
operation: key uniqueness and disjointness of the two maps, pending slots
are unresolved external cells, every declared resource owns a unique
`allThen` cell whose dependency cells realize its `requires` list in
order, and a resolved slot's state always mirrors its target. -/
structure Good (s : LState V E) : Prop where
  res_nodup : (s.resources.map (fun q => q.1)).Nodup
  prom_nodup : (s.promises.map (fun q => q.1)).Nodup
  disj : ∀ n, (lookupA s.resources n).isSome → (lookupA s.promises n).isSome → False
  prom_inj : ∀ n₁ n₂ c, lookupA s.promises n₁ = some c →
    lookupA s.promises n₂ = some c → n₁ = n₂
  prom_cells : ∀ n c, lookupA s.promises n = some c →
    c < s.cells.length ∧ s.kindOf c = .external
  ext_pending : ∀ i, s.kindOf i = .external → s.stateOf i = .pending
  res_cell : ∀ n e, lookupA s.resources n = some e →
    e.promise < s.cells.length ∧
    ∃ deps, s.kindOf e.promise = .allThen deps n e.provider ∧
      deps.length = e.requires.length ∧
      (∀ pr ∈ e.requires.zip deps, DepCell s pr.1 pr.2) ∧
      (∀ d ∈ deps, d < e.promise)
  allThen_owner : ∀ i deps n p, s.kindOf i = .allThen deps n p →
    ∃ e, lookupA s.resources n = some e ∧ e.promise = i
  link_settled : ∀ i t o, s.kindOf i = .link t → s.stateOf i = .settled o →
    s.stateOf t = .settled o

/-- Monotone facts relating a state to any later state of the same run:
the heap only grows, resource entries are permanent, settled cells stay
settled with the same outcome, and `link` / `allThen` kinds are final. -/
structure Steps (s s' : LState V E) : Prop where
  len_le : s.cells.length ≤ s'.cells.length
  res_mono : ∀ n e, lookupA s.resources n = some e → lookupA s'.resources n = some e
  settled_mono : ∀ i o, s.stateOf i = .settled o → s'.stateOf i = .settled o
  kind_link : ∀ i t, s.kindOf i = .link t → s'.kindOf i = .link t
  kind_allThen : ∀ i deps n p, s.kindOf i = .allThen deps n p →
    s'.kindOf i = .allThen deps n p

/-- Trace-level invariant: every settled resource promise either rejected
because one of its dependency cells rejected with that very reason — and
then the owner's producer was never invoked — or its producer was invoked
(exactly the event recorded in the trace) on the fulfilled dependency
values and the settlement is the producer's outcome. -/
def SettledCause (s : LState V E) (evs : List (Event V)) : Prop :=
  ∀ i deps n p o, s.kindOf i = .allThen deps n p → s.stateOf i = .settled o →
    ((∃ d e, d ∈ deps ∧ o = .err e ∧ s.stateOf d = .settled (.err e)) ∧
      countInvoke n evs = 0)
    ∨ (∃ vs, vs.length = deps.length ∧
        (∀ pr ∈ deps.zip vs, s.stateOf pr.1 = .settled (.ok pr.2)) ∧
        o = outcomeOf (p vs) ∧ 1 ≤ countInvoke n evs)

/-- Trace-level invariant: a producer that has been invoked at all has
been invoked exactly once, and its resource's promise is settled. -/
def OnceInv (s : LState V E) (evs : List (Event V)) : Prop :=
  ∀ r, 1 ≤ countInvoke r evs →
    ∃ e o, lookupA s.resources r = some e ∧ s.stateOf e.promise = .settled o ∧
      countInvoke r evs = 1

/-- A dependency cell that will settle without running any further
producer: it is already settled, or it is a resolved pending slot whose
target resource promise has already settled (one adoption microtask
away). -/
def CellReady (s : LState V E) (c : Nat) : Prop :=
  (∃ o, s.stateOf c = .settled o) ∨
  (∃ t o, s.kindOf c = .link t ∧ s.stateOf t = .settled o)

/-- Direct dependency between declared resources: `b` is named in `a`'s
`requires`. -/
def DirectDep (s : LState V E) (a b : String) : Prop :=
  ∃ e, lookupA s.resources a = some e ∧ b ∈ e.requires

/-- Direct-or-transitive dependency. -/
def TransDep (s : LState V E) : String → String → Prop :=
  Relation.TransGen (DirectDep s)

/-! ## Concrete producers and scenarios used by the witnesses -/

/-- A producer that ignores its arguments and returns `v`. -/
def pConst (v : Nat) : List Nat → Except Nat Nat := fun _ => .ok v

/-- A producer that ignores its arguments and throws `e`. -/
def pFail (e : Nat) : List Nat → Except Nat Nat := fun _ => .error e

/-- Scenario for the enumeration claims: declare `thing1` (requiring
`req1` and `req2`), then `req1`, then `thing2` (requiring `req1`). -/
def iterScenario : List (Action Nat Nat) :=
  [.declare "thing1" ["req1", "req2"] (pConst 0),
   .declare "req1" [] (pConst 0),
   .declare "thing2" ["req1"] (pConst 0)]

/-- Scenario with dependencies: `A` requires `B`; `B` is declared second
and produces `5`; one microtask settles `B`. -/
def demoAB : List (Action Nat Nat) :=
  [.declare "A" ["B"] (pConst 7), .declare "B" [] (pConst 5), .micro 2]

/-- Scenario with two independently failing dependencies: `A` requires
`B` and `C`; `B` fails with reason `1`, `C` fails with reason `2`; the
microtasks settle `B`, then `C`, then let the pending slots adopt, then
settle `A`. -/
def twoFailures : List (Action Nat Nat) :=
  [.declare "A" ["B", "C"] (pConst 0),
   .declare "B" [] (pFail 1),
   .declare "C" [] (pFail 2),
   .micro 3, .micro 4, .micro 0, .micro 1, .micro 2]

/-- Failure-propagation scenario: `D` requires `B`; `B`'s producer throws
`7`; microtasks settle `B`, the adoption of `B`'s slot, and `D`. -/
def failChain : List (Action Nat Nat) :=
  [.declare "D" ["B"] (pConst 3), .declare "B" [] (pFail 7),
   .micro 2, .micro 0, .micro 1]

/-! ## Basic lemmas about map lookup and the heap -/

theorem lookupA_append {α : Type} {m m' : List (String × α)} {k : String} :
    lookupA (m ++ m') k = ((lookupA m k).or (lookupA m' k)) := by
  unfold lookupA
  rw [List.find?_append]
  cases m.find? (fun p => p.1 == k) <;> simp [Option.or]

theorem lookupA_append_left {α : Type} {m m' : List (String × α)} {k : String}
    {v : α} (h : lookupA m k = some v) : lookupA (m ++ m') k = some v := by
  rw [lookupA_append, h]; rfl

theorem lookupA_append_right {α : Type} {m m' : List (String × α)} {k : String}
    (h : lookupA m k = none) : lookupA (m ++ m') k = lookupA m' k := by
  rw [lookupA_append, h]; rfl

theorem lookupA_cons {α : Type} {q : String × α} {m : List (String × α)} {k : String} :
    lookupA (q :: m) k = if q.1 = k then some q.2 else lookupA m k := by
  unfold lookupA
  by_cases h : q.1 = k
  · have hb : (q.1 == k) = true := by simp [h]
    simp [List.find?, hb, h]
  · have hb : (q.1 == k) = false := by simp [h]
    simp [List.find?, hb, h]

theorem lookupA_singleton {α : Type} {n k : String} {v : α} :
    lookupA [(n, v)] k = if n = k then some v else none := by
  rw [lookupA_cons]
  by_cases h : n = k <;> simp [h, lookupA]

theorem lookupA_eq_none_iff {α : Type} {m : List (String × α)} {k : String} :
    lookupA m k = none ↔ k ∉ m.map (fun q => q.1) := by
  induction m with
  | nil => simp [lookupA]
  | cons q m ih =>
    rw [lookupA_cons]
    by_cases h : q.1 = k
    · simp [h]
    · simp only [h, if_false, ih, List.map_cons, List.mem_cons]
      constructor
      · intro hn hm
        rcases hm with hm | hm
        · exact h hm.symm
        · exact hn hm
      · intro hn hm
        exact hn (Or.inr hm)

theorem lookupA_mem {α : Type} {m : List (String × α)} {k : String} {v : α}
    (h : lookupA m k = some v) : (k, v) ∈ m := by
  unfold lookupA at h
  cases hf : m.find? (fun p => p.1 == k) with
  | none => rw [hf] at h; exact absurd h (by simp)
  | some q =>
    rw [hf] at h
    have hq : q.1 = k := by simpa using List.find?_some hf
    have hm : q ∈ m := List.mem_of_find?_eq_some hf
    have : q = (k, v) := by
      cases q with
      | mk a b =>
        simp only at hq
        simp only [Option.some.injEq] at h
        rw [hq, h]
    rw [this] at hm
    exact hm

theorem lookupA_filter_ne {α : Type} {m : List (String × α)} {n k : String} :
    lookupA (m.filter (fun q => !(q.1 == n))) k =
      if k = n then none else lookupA m k := by
  induction m with
  | nil => simp [lookupA]
  | cons q m ih =>
    rw [List.filter_cons]
    by_cases hqn : q.1 = n
    · have hb : (q.1 == n) = true := by simp [hqn]
      simp only [hb, Bool.not_true, Bool.false_eq_true, if_false, ih]
      by_cases hk : k = n
      · simp [hk]
      · have hq1 : q.1 ≠ k := fun hc => hk (by rw [← hc]; exact hqn)
        simp only [hk, if_false]
        rw [lookupA_cons]
        simp [hq1]
    · have hb : (q.1 == n) = false := by simp [hqn]
      simp only [hb, Bool.not_false, if_true]
      rw [lookupA_cons, lookupA_cons, ih]
      by_cases hq1 : q.1 = k
      · have hk : k ≠ n := fun hc => hqn (by rw [hq1, hc])
        simp [hq1, hk]
      · simp [hq1]

theorem getCell_oob {s : LState V E} {i : Nat} (h : s.cells.length ≤ i) :
    s.getCell i = ⟨.external, .pending⟩ :=
  List.getD_eq_default _ _ h

theorem kindOf_oob {s : LState V E} {i : Nat} (h : s.cells.length ≤ i) :
    s.kindOf i = .external := by
  unfold LState.kindOf
  rw [getCell_oob h]

theorem stateOf_oob {s : LState V E} {i : Nat} (h : s.cells.length ≤ i) :
    s.stateOf i = .pending := by
  unfold LState.stateOf
  rw [getCell_oob h]

/-! ## Effect of each primitive operation on the heap and the maps -/

theorem getCell_append_pending {s : LState V E} {c : Cell V E} {i : Nat}
    (hc : c.state = .pending) :
    ((s.cells ++ [c]).getD i ⟨.external, .pending⟩).state =
      (s.getCell i).state := by
  rcases Nat.lt_trichotomy i s.cells.length with h | h | h
  · unfold LState.getCell
    rw [List.getD_append _ _ _ _ h]
  · subst h
    unfold LState.getCell
    rw [List.getD_eq_getElem?_getD, List.getElem?_append, if_neg (by omega)]
    simp only [Nat.sub_self, List.getElem?_cons_zero, Option.getD_some, hc]
    rw [List.getD_eq_default _ _ (Nat.le_refl _)]
  · unfold LState.getCell
    rw [List.getD_eq_default _ _ (by simp; omega), List.getD_eq_default _ _ (by omega)]

theorem getCell_append_lt {s : LState V E} {c : Cell V E} {i : Nat}
    (h : i < s.cells.length) :
    (s.cells ++ [c]).getD i ⟨.external, .pending⟩ = s.getCell i := by
  unfold LState.getCell
  rw [List.getD_append _ _ _ _ h]

theorem getCell_append_self {s : LState V E} {c : Cell V E} :
    (s.cells ++ [c]).getD s.cells.length ⟨.external, .pending⟩ = c := by
  rw [List.getD_eq_getElem?_getD, List.getElem?_append, if_neg (by omega)]
  simp

theorem extendSlot_resources {s : LState V E} {n : String} :
    (extendSlot s n).resources = s.resources := rfl

theorem extendSlot_len {s : LState V E} {n : String} :
    (extendSlot s n).cells.length = s.cells.length + 1 := by
  simp [extendSlot]

theorem extendSlot_kindOf {s : LState V E} {n : String} {i : Nat} :
    (extendSlot s n).kindOf i = s.kindOf i := by
  unfold LState.kindOf extendSlot
  rcases Nat.lt_trichotomy i s.cells.length with h | h | h
  · simp only [LState.getCell]
    rw [List.getD_append _ _ _ _ h]
  · subst h
    simp only [LState.getCell]
    rw [List.getD_eq_getElem?_getD, List.getElem?_append, if_neg (by omega)]
    simp only [Nat.sub_self, List.getElem?_cons_zero, Option.getD_some]
    rw [List.getD_eq_default _ _ (Nat.le_refl _)]
  · simp only [LState.getCell]
    rw [List.getD_eq_default _ _ (by simp; omega), List.getD_eq_default _ _ (by omega)]

theorem extendSlot_stateOf {s : LState V E} {n : String} {i : Nat} :
    (extendSlot s n).stateOf i = s.stateOf i := by
  unfold LState.stateOf
  exact getCell_append_pending rfl

theorem extendSlot_getCell_lt {s : LState V E} {n : String} {i : Nat}
    (h : i < s.cells.length) : (extendSlot s n).getCell i = s.getCell i :=
  getCell_append_lt h

theorem extendSlot_promises {s : LState V E} {n k : String}
    (h : lookupA s.promises n = none) :
    lookupA (extendSlot s n).promises k =
      if k = n then some s.cells.length else lookupA s.promises k := by
  show lookupA (s.promises ++ [(n, s.cells.length)]) k = _
  by_cases hk : k = n
  · subst hk
    rw [lookupA_append_right h, lookupA_singleton]
    simp
  · rw [lookupA_append, lookupA_singleton, if_neg (fun hc => hk hc.symm), if_neg hk]
    cases lookupA s.promises k <;> rfl

theorem addResourceCell_resources {s : LState V E} {deps : List Nat} {n : String}
    {p : List V → Except E V} : (addResourceCell s deps n p).resources = s.resources := rfl

theorem addResourceCell_promises {s : LState V E} {deps : List Nat} {n : String}
    {p : List V → Except E V} : (addResourceCell s deps n p).promises = s.promises := rfl

theorem addResourceCell_len {s : LState V E} {deps : List Nat} {n : String}
    {p : List V → Except E V} :
    (addResourceCell s deps n p).cells.length = s.cells.length + 1 := by
  simp [addResourceCell]

theorem addResourceCell_stateOf {s : LState V E} {deps : List Nat} {n : String}
    {p : List V → Except E V} {i : Nat} :
    (addResourceCell s deps n p).stateOf i = s.stateOf i := by
  unfold LState.stateOf
  exact getCell_append_pending rfl

theorem addResourceCell_kindOf_lt {s : LState V E} {deps : List Nat} {n : String}
    {p : List V → Except E V} {i : Nat} (h : i < s.cells.length) :
    (addResourceCell s deps n p).kindOf i = s.kindOf i := by
  unfold LState.kindOf
  rw [show (addResourceCell s deps n p).getCell i = s.getCell i from getCell_append_lt h]

theorem addResourceCell_kindOf_self {s : LState V E} {deps : List Nat} {n : String}
    {p : List V → Except E V} :
    (addResourceCell s deps n p).kindOf s.cells.length = .allThen deps n p := by
  unfold LState.kindOf
  rw [show (addResourceCell s deps n p).getCell s.cells.length =
    ⟨.allThen deps n p, .pending⟩ from getCell_append_self]

theorem addResourceCell_kindOf_gt {s : LState V E} {deps : List Nat} {n : String}
    {p : List V → Except E V} {i : Nat} (h : s.cells.length < i) :
    (addResourceCell s deps n p).kindOf i = s.kindOf i := by
  rw [kindOf_oob (by rw [addResourceCell_len]; omega), kindOf_oob (by omega)]

theorem settleSlot_of_none {s : LState V E} {n : String} {rid : Nat}
    (h : lookupA s.promises n = none) : settleSlot s n rid = s := by
  unfold settleSlot
  rw [h]

theorem settleSlot_of_some {s : LState V E} {n : String} {rid pid : Nat}
    (h : lookupA s.promises n = some pid) :
    settleSlot s n rid =
      { s with cells := s.cells.set pid ⟨.link rid, (s.getCell pid).state⟩,
               promises := s.promises.filter (fun q => !(q.1 == n)) } := by
  unfold settleSlot
  rw [h]

theorem getCell_set_keepstate {s : LState V E} {pid : Nat} {k : CKind V E} {i : Nat} :
    ((s.cells.set pid ⟨k, (s.getCell pid).state⟩).getD i ⟨.external, .pending⟩).state =
      (s.getCell i).state := by
  by_cases hi : i = pid
  · subst hi
    by_cases hlt : i < s.cells.length
    · rw [List.getD_eq_getElem?_getD, List.getElem?_set_self hlt]
      rfl
    · rw [List.set_eq_of_length_le (by omega)]
      rfl
  · rw [List.getD_eq_getElem?_getD, List.getElem?_set_ne (fun hc => hi hc.symm),
      ← List.getD_eq_getElem?_getD]
    rfl

theorem getCell_set_ne {s : LState V E} {pid : Nat} {c : Cell V E} {i : Nat}
    (h : i ≠ pid) :
    (s.cells.set pid c).getD i ⟨.external, .pending⟩ = s.getCell i := by
  rw [List.getD_eq_getElem?_getD, List.getElem?_set_ne (fun hc => h hc.symm),
    ← List.getD_eq_getElem?_getD]
  rfl

theorem getCell_set_self {s : LState V E} {pid : Nat} {c : Cell V E}
    (h : pid < s.cells.length) :
    (s.cells.set pid c).getD pid ⟨.external, .pending⟩ = c := by
  rw [List.getD_eq_getElem?_getD, List.getElem?_set_self h]
  rfl

theorem setSt_resources {s : LState V E} {i : Nat} {st : CState V E} :
    (setSt s i st).resources = s.resources := rfl

theorem setSt_promises {s : LState V E} {i : Nat} {st : CState V E} :
    (setSt s i st).promises = s.promises := rfl

theorem setSt_len {s : LState V E} {i : Nat} {st : CState V E} :
    (setSt s i st).cells.length = s.cells.length := by
  simp [setSt]

theorem setSt_kindOf {s : LState V E} {i : Nat} {st : CState V E} {j : Nat} :
    (setSt s i st).kindOf j = s.kindOf j := by
  unfold LState.kindOf setSt
  by_cases hj : j = i
  · subst hj
    by_cases hlt : j < s.cells.length
    · simp only [LState.getCell]
      rw [List.getD_eq_getElem?_getD, List.getElem?_set_self hlt]
      rfl
    · simp only [LState.getCell]
      rw [List.set_eq_of_length_le (by omega)]
  · simp only [LState.getCell]
    rw [List.getD_eq_getElem?_getD, List.getElem?_set_ne (fun hc => hj hc.symm),
      ← List.getD_eq_getElem?_getD]

theorem setSt_stateOf_self {s : LState V E} {i : Nat} {st : CState V E}
    (h : i < s.cells.length) : (setSt s i st).stateOf i = st := by
  unfold LState.stateOf setSt
  simp only [LState.getCell]
  rw [List.getD_eq_getElem?_getD, List.getElem?_set_self h]
  rfl

theorem setSt_stateOf_ne {s : LState V E} {i : Nat} {st : CState V E} {j : Nat}
    (h : j ≠ i) : (setSt s i st).stateOf j = s.stateOf j := by
  unfold LState.stateOf setSt
  simp only [LState.getCell]
  rw [List.getD_eq_getElem?_getD, List.getElem?_set_ne (fun hc => h hc.symm),
    ← List.getD_eq_getElem?_getD]

theorem addEntry_cells {s : LState V E} {n : String} {req : List String}
    {p : List V → Except E V} {rid : Nat} :
    (addEntry s n req p rid).cells = s.cells := rfl

theorem addEntry_promises {s : LState V E} {n : String} {req : List String}
    {p : List V → Except E V} {rid : Nat} :
    (addEntry s n req p rid).promises = s.promises := rfl

theorem addEntry_kindOf {s : LState V E} {n : String} {req : List String}
    {p : List V → Except E V} {rid : Nat} {i : Nat} :
    (addEntry s n req p rid).kindOf i = s.kindOf i := rfl

theorem addEntry_stateOf {s : LState V E} {n : String} {req : List String}
    {p : List V → Except E V} {rid : Nat} {i : Nat} :
    (addEntry s n req p rid).stateOf i = s.stateOf i := rfl

theorem addEntry_resources {s : LState V E} {n : String} {req : List String}
    {p : List V → Except E V} {rid : Nat} {k : String}
    (h : lookupA s.resources n = none) :
    lookupA (addEntry s n req p rid).resources k =
      if k = n then some ⟨req, p, rid⟩ else lookupA s.resources k := by
  show lookupA (s.resources ++ [(n, ⟨req, p, rid⟩)]) k = _
  by_cases hk : k = n
  · subst hk
    rw [lookupA_append_right h, lookupA_singleton]
    simp
  · rw [lookupA_append, lookupA_singleton, if_neg (fun hc => hk hc.symm), if_neg hk]
    cases lookupA s.resources k <;> rfl

/-! ## The `Steps` relation -/

theorem Steps.rfl {s : LState V E} : Steps s s :=
  ⟨Nat.le_refl _, fun _ _ h => h, fun _ _ h => h, fun _ _ h => h, fun _ _ _ _ h => h⟩

theorem Steps.comp {s s' s'' : LState V E} (h : Steps s s') (h' : Steps s' s'') :
    Steps s s'' :=
  ⟨Nat.le_trans h.len_le h'.len_le,
   fun n e he => h'.res_mono n e (h.res_mono n e he),
   fun i o ho => h'.settled_mono i o (h.settled_mono i o ho),
   fun i t ht => h'.kind_link i t (h.kind_link i t ht),
   fun i deps n p hk => h'.kind_allThen i deps n p (h.kind_allThen i deps n p hk)⟩

theorem steps_extendSlot {s : LState V E} {n : String} : Steps s (extendSlot s n) := by
  refine ⟨by rw [extendSlot_len]; omega, ?_, ?_, ?_, ?_⟩
  · intro k e he
    rw [extendSlot_resources]; exact he
  · intro i o ho
    rw [extendSlot_stateOf]; exact ho
  · intro i t ht
    rw [extendSlot_kindOf]; exact ht
  · intro i deps k p hk
    rw [extendSlot_kindOf]; exact hk

theorem steps_addResourceCell {s : LState V E} {deps : List Nat} {n : String}
    {p : List V → Except E V} : Steps s (addResourceCell s deps n p) := by
  refine ⟨by rw [addResourceCell_len]; omega, ?_, ?_, ?_, ?_⟩
  · intro k e he
    rw [show (addResourceCell s deps n p).resources = s.resources from rfl]; exact he
  · intro i o ho
    rw [addResourceCell_stateOf]; exact ho
  · intro i t ht
    rcases Nat.lt_trichotomy i s.cells.length with h | h | h
    · rw [addResourceCell_kindOf_lt h]; exact ht
    · exact absurd ht (by rw [kindOf_oob (Nat.le_of_eq h.symm)]; simp)
    · rw [addResourceCell_kindOf_gt h]; exact ht
  · intro i deps' k p' hk
    rcases Nat.lt_trichotomy i s.cells.length with h | h | h
    · rw [addResourceCell_kindOf_lt h]; exact hk
    · exact absurd hk (by rw [kindOf_oob (Nat.le_of_eq h.symm)]; simp)
    · rw [addResourceCell_kindOf_gt h]; exact hk

theorem steps_settleSlot {s : LState V E} {n : String} {rid : Nat}
    (hext : ∀ pid, lookupA s.promises n = some pid → s.kindOf pid = .external) :
    Steps s (settleSlot s n rid) := by
  cases hp : lookupA s.promises n with
  | none => rw [settleSlot_of_none hp]; exact Steps.rfl
  | some pid =>
    rw [settleSlot_of_some hp]
    refine ⟨by simp, fun k e he => he, ?_, ?_, ?_⟩
    · intro i o ho
      show ((s.cells.set pid _).getD i _).state = _
      rw [getCell_set_keepstate]; exact ho
    · intro i t ht
      show ((s.cells.set pid _).getD i _).kind = _
      by_cases hi : i = pid
      · subst hi
        exact absurd ht (by rw [hext i hp]; simp)
      · rw [getCell_set_ne hi]; exact ht
    · intro i deps k p hk
      show ((s.cells.set pid _).getD i _).kind = _
      by_cases hi : i = pid
      · subst hi
        exact absurd hk (by rw [hext i hp]; simp)
      · rw [getCell_set_ne hi]; exact hk

theorem steps_addEntry {s : LState V E} {n : String} {req : List String}
    {p : List V → Except E V} {rid : Nat} : Steps s (addEntry s n req p rid) := by
  refine ⟨Nat.le_of_eq (by rw [addEntry_cells]), ?_, ?_, ?_, ?_⟩
  · intro k e he
    exact lookupA_append_left he
  · intro i o ho
    rw [addEntry_stateOf]; exact ho
  · intro i t ht
    rw [addEntry_kindOf]; exact ht
  · intro i deps k p' hk
    rw [addEntry_kindOf]; exact hk

theorem steps_setSt {s : LState V E} {i : Nat} {st : CState V E}
    (h : s.stateOf i = .pending) : Steps s (setSt s i st) := by
  refine ⟨Nat.le_of_eq (setSt_len).symm, fun k e he => he, ?_, ?_, ?_⟩
  · intro j o ho
    by_cases hj : j = i
    · subst hj
      rw [h] at ho
      exact absurd ho (by simp)
    · rw [setSt_stateOf_ne hj]; exact ho
  · intro j t ht
    rw [setSt_kindOf]; exact ht
  · intro j deps k p hk
    rw [setSt_kindOf]; exact hk

/-! ## Good-state preservation for slot creation -/

theorem good_extendSlot {s : LState V E} {n : String} (hg : Good s)
    (hr : lookupA s.resources n = none) (hp : lookupA s.promises n = none) :
    Good (extendSlot s n) := by
  have hlook : ∀ k, lookupA (extendSlot s n).promises k =
      if k = n then some s.cells.length else lookupA s.promises k :=
    fun k => extendSlot_promises hp
  refine ⟨?_, ?_, ?_, ?_, ?_, ?_, ?_, ?_, ?_⟩
  · rw [extendSlot_resources]; exact hg.res_nodup
  · show ((s.promises ++ [(n, s.cells.length)]).map (fun q => q.1)).Nodup
    rw [List.map_append]
    refine List.Nodup.append hg.prom_nodup (by simp) ?_
    intro a ha hb
    simp only [List.map_cons, List.map_nil, List.mem_singleton] at hb
    subst hb
    exact (lookupA_eq_none_iff.mp hp) ha
  · intro k hks hkp
    rw [extendSlot_resources] at hks
    rw [hlook k] at hkp
    by_cases hk : k = n
    · subst hk
      rw [hr] at hks
      exact absurd hks (by simp)
    · rw [if_neg hk] at hkp
      exact hg.disj k hks hkp
  · intro n₁ n₂ c h1 h2
    rw [hlook n₁] at h1
    rw [hlook n₂] at h2
    by_cases hk1 : n₁ = n <;> by_cases hk2 : n₂ = n
    · rw [hk1, hk2]
    · rw [if_pos hk1] at h1
      rw [if_neg hk2] at h2
      have hc : c = s.cells.length := by injection h1 with h1; omega
      exact absurd (hg.prom_cells n₂ c h2).1 (by omega)
    · rw [if_neg hk1] at h1
      rw [if_pos hk2] at h2
      have hc : c = s.cells.length := by injection h2 with h2; omega
      exact absurd (hg.prom_cells n₁ c h1).1 (by omega)
    · rw [if_neg hk1] at h1
      rw [if_neg hk2] at h2
      exact hg.prom_inj n₁ n₂ c h1 h2
  · intro k c hc
    rw [hlook k] at hc
    by_cases hk : k = n
    · rw [if_pos hk] at hc
      have hcv : c = s.cells.length := by injection hc with hc; omega
      subst hcv
      constructor
      · rw [extendSlot_len]; omega
      · rw [extendSlot_kindOf, kindOf_oob (Nat.le_refl _)]
    · rw [if_neg hk] at hc
      have := hg.prom_cells k c hc
      constructor
      · rw [extendSlot_len]; omega
      · rw [extendSlot_kindOf]; exact this.2
  · intro i hk
    rw [extendSlot_kindOf] at hk
    rw [extendSlot_stateOf]
    exact hg.ext_pending i hk
  · intro k e he
    rw [extendSlot_resources] at he
    obtain ⟨hb, deps, hkind, hlen, hdep, hlt⟩ := hg.res_cell k e he
    refine ⟨by rw [extendSlot_len]; omega, deps, ?_, hlen, ?_, hlt⟩
    · rw [extendSlot_kindOf]; exact hkind
    · intro pr hpr
      obtain ⟨hbnd, hcase⟩ := hdep pr hpr
      refine ⟨by rw [extendSlot_len]; omega, ?_⟩
      rcases hcase with ⟨e', he', hor⟩ | ⟨hpp, hke⟩
      · refine Or.inl ⟨e', by rw [extendSlot_resources]; exact he', ?_⟩
        rcases hor with h | h
        · exact Or.inl h
        · exact Or.inr (by rw [extendSlot_kindOf]; exact h)
      · refine Or.inr ⟨?_, by rw [extendSlot_kindOf]; exact hke⟩
        rw [hlook pr.1]
        by_cases hp1 : pr.1 = n
        · rw [hp1] at hpp
          rw [hpp] at hp
          exact absurd hp (by simp)
        · rw [if_neg hp1]; exact hpp
  · intro i deps k p hk
    rw [extendSlot_kindOf] at hk
    obtain ⟨e, he, hpr⟩ := hg.allThen_owner i deps k p hk
    exact ⟨e, by rw [extendSlot_resources]; exact he, hpr⟩
  · intro i t o hk hst
    rw [extendSlot_kindOf] at hk
    rw [extendSlot_stateOf] at hst
    rw [extendSlot_stateOf]
    exact hg.link_settled i t o hk hst

/-! ## Specification of `promiseFor` and the dependency loop -/

theorem promiseFor_res {s : LState V E} {n : String} {e : REntry V E}
    (hr : lookupA s.resources n = some e) : promiseFor s n = (e.promise, s) := by
  unfold promiseFor
  rw [hr]

theorem promiseFor_prom {s : LState V E} {n : String} {pid : Nat}
    (hr : lookupA s.resources n = none) (hp : lookupA s.promises n = some pid) :
    promiseFor s n = (pid, s) := by
  unfold promiseFor
  rw [hr, hp]

theorem promiseFor_new {s : LState V E} {n : String}
    (hr : lookupA s.resources n = none) (hp : lookupA s.promises n = none) :
    promiseFor s n = (s.cells.length, extendSlot s n) := by
  unfold promiseFor
  rw [hr, hp]

theorem depCell_extendSlot {s : LState V E} {n : String} {d : String} {c : Nat}
    (hp : lookupA s.promises n = none) (h : DepCell s d c) :
    DepCell (extendSlot s n) d c := by
  obtain ⟨hb, hcase⟩ := h
  refine ⟨by rw [extendSlot_len]; omega, ?_⟩
  rcases hcase with ⟨e', he', hor⟩ | ⟨hpp, hke⟩
  · refine Or.inl ⟨e', by rw [extendSlot_resources]; exact he', ?_⟩
    rcases hor with h' | h'
    · exact Or.inl h'
    · exact Or.inr (by rw [extendSlot_kindOf]; exact h')
  · refine Or.inr ⟨?_, by rw [extendSlot_kindOf]; exact hke⟩
    rw [extendSlot_promises hp]
    by_cases hd : d = n
    · rw [hd] at hpp
      rw [hpp] at hp
      exact absurd hp (by simp)
    · rw [if_neg hd]
      exact hpp

theorem promiseFor_spec {s : LState V E} (n : String) (hg : Good s) :
    Good (promiseFor s n).2 ∧ Steps s (promiseFor s n).2 ∧
    (promiseFor s n).2.resources = s.resources ∧
    (∀ d c, DepCell s d c → DepCell (promiseFor s n).2 d c) ∧
    DepCell (promiseFor s n).2 n (promiseFor s n).1 := by
  cases hr : lookupA s.resources n with
  | some e =>
    rw [promiseFor_res hr]
    refine ⟨hg, Steps.rfl, rfl, fun d c h => h, ?_⟩
    obtain ⟨hb, _⟩ := hg.res_cell n e hr
    exact ⟨hb, Or.inl ⟨e, hr, Or.inl rfl⟩⟩
  | none =>
    cases hp : lookupA s.promises n with
    | some pid =>
      rw [promiseFor_prom hr hp]
      refine ⟨hg, Steps.rfl, rfl, fun d c h => h, ?_⟩
      have h2 := hg.prom_cells n pid hp
      exact ⟨h2.1, Or.inr ⟨hp, h2.2⟩⟩
    | none =>
      rw [promiseFor_new hr hp]
      refine ⟨good_extendSlot hg hr hp, steps_extendSlot, extendSlot_resources,
        fun d c h => depCell_extendSlot hp h, ?_⟩
      refine ⟨by rw [extendSlot_len]; omega, Or.inr ⟨?_, ?_⟩⟩
      · rw [extendSlot_promises hp, if_pos rfl]
      · rw [extendSlot_kindOf, kindOf_oob (Nat.le_refl _)]

theorem promisesFor_spec {s : LState V E} (ns : List String) (hg : Good s) :
    Good (promisesFor s ns).2 ∧ Steps s (promisesFor s ns).2 ∧
    (promisesFor s ns).2.resources = s.resources ∧
    (∀ d c, DepCell s d c → DepCell (promisesFor s ns).2 d c) ∧
    (promisesFor s ns).1.length = ns.length ∧
    (∀ pr ∈ ns.zip (promisesFor s ns).1, DepCell (promisesFor s ns).2 pr.1 pr.2) := by
  induction ns generalizing s with
  | nil =>
    exact ⟨hg, Steps.rfl, rfl, fun d c h => h, rfl, by intro pr hpr; simp at hpr⟩
  | cons n ns ih =>
    obtain ⟨hg1, hs1, hres1, hmono1, hdc1⟩ := promiseFor_spec n hg
    obtain ⟨hg2, hs2, hres2, hmono2, hlen2, hzip2⟩ := ih hg1
    have hcons : promisesFor s (n :: ns) =
        ((promiseFor s n).1 :: (promisesFor (promiseFor s n).2 ns).1,
         (promisesFor (promiseFor s n).2 ns).2) := rfl
    rw [hcons]
    refine ⟨hg2, Steps.comp hs1 hs2, by rw [hres2, hres1],
      fun d c h => hmono2 d c (hmono1 d c h), by simp [hlen2], ?_⟩
    intro pr hpr
    rw [List.zip_cons_cons, List.mem_cons] at hpr
    rcases hpr with hpr | hpr
    · subst hpr
      exact hmono2 n (promiseFor s n).1 hdc1
    · exact hzip2 pr hpr

/-! ## The composite effect of a successful declaration -/

theorem mem_zip_of_mem_right {α β : Type} {c : β} :
    ∀ {as : List α} {bs : List β}, bs.length = as.length → c ∈ bs →
      ∃ d, (d, c) ∈ as.zip bs := by
  intro as
  induction as with
  | nil =>
    intro bs hlen hc
    cases bs with
    | nil => exact absurd hc (by simp)
    | cons b bs => simp at hlen
  | cons a as ih =>
    intro bs hlen hc
    cases bs with
    | nil => exact absurd hc (by simp)
    | cons b bs =>
      rcases List.mem_cons.mp hc with hc | hc
      · subst hc
        exact ⟨a, by simp⟩
      · obtain ⟨d, hd⟩ := ih (by simpa using hlen) hc
        exact ⟨d, List.mem_cons_of_mem _ hd⟩

theorem settleSlot_resources {s : LState V E} {n : String} {rid : Nat} :
    (settleSlot s n rid).resources = s.resources := by
  unfold settleSlot
  cases lookupA s.promises n <;> rfl

theorem settleSlot_len {s : LState V E} {n : String} {rid : Nat} :
    (settleSlot s n rid).cells.length = s.cells.length := by
  unfold settleSlot
  cases lookupA s.promises n with
  | none => rfl
  | some pid => simp

theorem settleSlot_stateOf {s : LState V E} {n : String} {rid : Nat} {i : Nat} :
    (settleSlot s n rid).stateOf i = s.stateOf i := by
  unfold settleSlot
  cases lookupA s.promises n with
  | none => rfl
  | some pid =>
    show ((s.cells.set pid _).getD i _).state = _
    rw [getCell_set_keepstate]
    rfl

theorem settleSlot_promises {s : LState V E} {n : String} {rid : Nat} {k : String} :
    lookupA (settleSlot s n rid).promises k =
      if k = n then none else lookupA s.promises k := by
  unfold settleSlot
  cases hp : lookupA s.promises n with
  | none =>
    by_cases hk : k = n
    · rw [if_pos hk, hk]
      exact hp
    · rw [if_neg hk]
  | some pid =>
    show lookupA (s.promises.filter _) k = _
    rw [lookupA_filter_ne]

theorem settleSlot_promises_sublist {s : LState V E} {n : String} {rid : Nat} :
    List.Sublist (settleSlot s n rid).promises s.promises := by
  unfold settleSlot
  cases lookupA s.promises n with
  | none => exact List.Sublist.refl _
  | some pid => exact List.filter_sublist _

theorem settleSlot_kindOf_self {s : LState V E} {n : String} {rid pid : Nat}
    (hp : lookupA s.promises n = some pid) (hlt : pid < s.cells.length) :
    (settleSlot s n rid).kindOf pid = .link rid := by
  unfold settleSlot
  rw [hp]
  show ((s.cells.set pid _).getD pid _).kind = _
  rw [getCell_set_self hlt]

theorem settleSlot_kindOf_ne {s : LState V E} {n : String} {rid : Nat} {i : Nat}
    (hi : ∀ pid, lookupA s.promises n = some pid → i ≠ pid) :
    (settleSlot s n rid).kindOf i = s.kindOf i := by
  unfold settleSlot
  cases hp : lookupA s.promises n with
  | none => rfl
  | some pid =>
    show ((s.cells.set pid _).getD i _).kind = _
    rw [getCell_set_ne (hi pid hp)]
    rfl

theorem declare_core {s1 : LState V E} {n : String} {req : List String}
    {p : List V → Except E V} {ids : List Nat}
    (hg1 : Good s1)
    (hres_n : lookupA s1.resources n = none)
    (hlen : ids.length = req.length)
    (hzip : ∀ pr ∈ req.zip ids, DepCell s1 pr.1 pr.2) :
    Good (addEntry (settleSlot (addResourceCell s1 ids n p) n s1.cells.length)
        n req p s1.cells.length) ∧
    Steps s1 (addEntry (settleSlot (addResourceCell s1 ids n p) n s1.cells.length)
        n req p s1.cells.length) ∧
    (∀ d c, DepCell s1 d c →
      DepCell (addEntry (settleSlot (addResourceCell s1 ids n p) n s1.cells.length)
        n req p s1.cells.length) d c) ∧
    (∀ k, lookupA (addEntry (settleSlot (addResourceCell s1 ids n p) n s1.cells.length)
        n req p s1.cells.length).resources k =
      if k = n then some ⟨req, p, s1.cells.length⟩ else lookupA s1.resources k) ∧
    (∀ k, lookupA (addEntry (settleSlot (addResourceCell s1 ids n p) n s1.cells.length)
        n req p s1.cells.length).promises k =
      if k = n then none else lookupA s1.promises k) ∧
    (∀ i, (addEntry (settleSlot (addResourceCell s1 ids n p) n s1.cells.length)
        n req p s1.cells.length).stateOf i = s1.stateOf i) ∧
    (∀ i deps' n' p',
      (addEntry (settleSlot (addResourceCell s1 ids n p) n s1.cells.length)
        n req p s1.cells.length).kindOf i = .allThen deps' n' p' →
      s1.kindOf i = .allThen deps' n' p' ∨
      (addEntry (settleSlot (addResourceCell s1 ids n p) n s1.cells.length)
        n req p s1.cells.length).stateOf i = .pending) := by
  have hids_lt : ∀ c ∈ ids, c < s1.cells.length := by
    intro c hc
    obtain ⟨d, hd⟩ := mem_zip_of_mem_right hlen hc
    exact (hzip (d, c) hd).1
  have hstate4 : ∀ i,
      (addEntry (settleSlot (addResourceCell s1 ids n p) n s1.cells.length)
        n req p s1.cells.length).stateOf i = s1.stateOf i := by
    intro i
    rw [addEntry_stateOf, settleSlot_stateOf, addResourceCell_stateOf]
  have hlen4 :
      (addEntry (settleSlot (addResourceCell s1 ids n p) n s1.cells.length)
        n req p s1.cells.length).cells.length = s1.cells.length + 1 := by
    rw [addEntry_cells, settleSlot_len, addResourceCell_len]
  have hk_rid :
      (addEntry (settleSlot (addResourceCell s1 ids n p) n s1.cells.length)
        n req p s1.cells.length).kindOf s1.cells.length = .allThen ids n p := by
    rw [addEntry_kindOf, settleSlot_kindOf_ne, addResourceCell_kindOf_self]
    intro pid hpid
    rw [addResourceCell_promises] at hpid
    have := (hg1.prom_cells n pid hpid).1
    omega
  have hk_pid : ∀ pid, lookupA s1.promises n = some pid →
      (addEntry (settleSlot (addResourceCell s1 ids n p) n s1.cells.length)
        n req p s1.cells.length).kindOf pid = .link s1.cells.length := by
    intro pid hpid
    have hlt := (hg1.prom_cells n pid hpid).1
    rw [addEntry_kindOf, settleSlot_kindOf_self
      (by rw [addResourceCell_promises]; exact hpid)
      (by rw [addResourceCell_len]; omega)]
  have hk_other : ∀ i, i ≠ s1.cells.length →
      (∀ pid, lookupA s1.promises n = some pid → i ≠ pid) →
      (addEntry (settleSlot (addResourceCell s1 ids n p) n s1.cells.length)
        n req p s1.cells.length).kindOf i = s1.kindOf i := by
    intro i hi hip
    rw [addEntry_kindOf, settleSlot_kindOf_ne
      (fun pid hpid => hip pid (by rw [addResourceCell_promises] at hpid; exact hpid))]
    rcases Nat.lt_trichotomy i s1.cells.length with h | h | h
    · exact addResourceCell_kindOf_lt h
    · exact absurd h hi
    · exact addResourceCell_kindOf_gt h
  have hres4 : ∀ k,
      lookupA (addEntry (settleSlot (addResourceCell s1 ids n p) n s1.cells.length)
        n req p s1.cells.length).resources k =
      if k = n then some ⟨req, p, s1.cells.length⟩ else lookupA s1.resources k := by
    intro k
    have h0 : lookupA (settleSlot (addResourceCell s1 ids n p) n
        s1.cells.length).resources n = none := by
      rw [settleSlot_resources, addResourceCell_resources]
      exact hres_n
    rw [addEntry_resources h0, settleSlot_resources, addResourceCell_resources]
  have hprom4 : ∀ k,
      lookupA (addEntry (settleSlot (addResourceCell s1 ids n p) n s1.cells.length)
        n req p s1.cells.length).promises k =
      if k = n then none else lookupA s1.promises k := by
    intro k
    rw [addEntry_promises, settleSlot_promises, addResourceCell_promises]
  have hext_pid : ∀ pid, lookupA s1.promises n = some pid → s1.kindOf pid = .external :=
    fun pid hpid => (hg1.prom_cells n pid hpid).2
  have depmono : ∀ d c, DepCell s1 d c →
      DepCell (addEntry (settleSlot (addResourceCell s1 ids n p) n s1.cells.length)
        n req p s1.cells.length) d c := by
    intro d c hdc
    obtain ⟨hb, hcase⟩ := hdc
    refine ⟨by omega, ?_⟩
    rcases hcase with ⟨e', he', hor⟩ | ⟨hpp, hke⟩
    · have hdn : d ≠ n := by
        intro hdn
        rw [hdn, hres_n] at he'
        exact absurd he' (by simp)
      refine Or.inl ⟨e', by rw [hres4, if_neg hdn]; exact he', ?_⟩
      rcases hor with h' | h'
      · exact Or.inl h'
      · refine Or.inr ?_
        have hip : ∀ pid, lookupA s1.promises n = some pid → c ≠ pid := by
          intro pid hpid hcp
          rw [hcp, hext_pid pid hpid] at h'
          exact absurd h' (by simp)
        rw [hk_other c (by omega) hip]
        exact h'
    · by_cases hdn : d = n
      · subst hdn
        refine Or.inl ⟨⟨req, p, s1.cells.length⟩, by rw [hres4, if_pos rfl], ?_⟩
        exact Or.inr (hk_pid c hpp)
      · have hip : ∀ pid, lookupA s1.promises n = some pid → c ≠ pid := by
          intro pid hpid hcp
          subst hcp
          exact hdn (hg1.prom_inj d n c hpp hpid)
        refine Or.inr ⟨by rw [hprom4, if_neg hdn]; exact hpp, ?_⟩
        rw [hk_other c (by omega) hip]
        exact hke
  have hresources_eq :
      (addEntry (settleSlot (addResourceCell s1 ids n p) n s1.cells.length)
        n req p s1.cells.length).resources =
      s1.resources ++ [(n, ⟨req, p, s1.cells.length⟩)] := by
    show (settleSlot (addResourceCell s1 ids n p) n s1.cells.length).resources ++ _ = _
    rw [settleSlot_resources, addResourceCell_resources]
  have hsteps : Steps s1
      (addEntry (settleSlot (addResourceCell s1 ids n p) n s1.cells.length)
        n req p s1.cells.length) := by
    refine Steps.comp steps_addResourceCell (Steps.comp (steps_settleSlot ?_) steps_addEntry)
    intro pid hpid
    rw [addResourceCell_promises] at hpid
    rw [addResourceCell_kindOf_lt (hg1.prom_cells n pid hpid).1]
    exact hext_pid pid hpid
  have hkrev : ∀ i deps' n' p',
      (addEntry (settleSlot (addResourceCell s1 ids n p) n s1.cells.length)
        n req p s1.cells.length).kindOf i = .allThen deps' n' p' →
      s1.kindOf i = .allThen deps' n' p' ∨
      (addEntry (settleSlot (addResourceCell s1 ids n p) n s1.cells.length)
        n req p s1.cells.length).stateOf i = .pending := by
    intro i deps' n' p' hk
    by_cases hi : i = s1.cells.length
    · refine Or.inr ?_
      rw [hstate4, hi]
      exact stateOf_oob (Nat.le_refl _)
    · have hip : ∀ pid, lookupA s1.promises n = some pid → i ≠ pid := by
        intro pid hpid hcp
        rw [hcp, hk_pid pid hpid] at hk
        exact absurd hk (by simp)
      rw [hk_other i hi hip] at hk
      exact Or.inl hk
  refine ⟨?_, hsteps, depmono, hres4, hprom4, hstate4, hkrev⟩
  refine ⟨?_, ?_, ?_, ?_, ?_, ?_, ?_, ?_, ?_⟩
  · rw [hresources_eq, List.map_append]
    refine List.Nodup.append hg1.res_nodup (by simp) ?_
    intro a ha hb
    simp only [List.map_cons, List.map_nil, List.mem_singleton] at hb
    subst hb
    exact (lookupA_eq_none_iff.mp hres_n) ha
  · have hsub : List.Sublist
        (addEntry (settleSlot (addResourceCell s1 ids n p) n s1.cells.length)
          n req p s1.cells.length).promises s1.promises := by
      rw [addEntry_promises]
      have h0 := @settleSlot_promises_sublist V E (addResourceCell s1 ids n p)
        n s1.cells.length
      rw [addResourceCell_promises] at h0
      exact h0
    exact List.Nodup.sublist (List.Sublist.map _ hsub) hg1.prom_nodup
  · intro k hks hkp
    rw [hres4] at hks
    rw [hprom4] at hkp
    by_cases hk : k = n
    · rw [if_pos hk] at hkp
      exact absurd hkp (by simp)
    · rw [if_neg hk] at hks hkp
      exact hg1.disj k hks hkp
  · intro n₁ n₂ c h1 h2
    rw [hprom4] at h1 h2
    by_cases hk1 : n₁ = n
    · rw [if_pos hk1] at h1
      exact absurd h1 (by simp)
    · by_cases hk2 : n₂ = n
      · rw [if_pos hk2] at h2
        exact absurd h2 (by simp)
      · rw [if_neg hk1] at h1
        rw [if_neg hk2] at h2
        exact hg1.prom_inj n₁ n₂ c h1 h2
  · intro k c hc
    rw [hprom4] at hc
    by_cases hk : k = n
    · rw [if_pos hk] at hc
      exact absurd hc (by simp)
    · rw [if_neg hk] at hc
      have h2 := hg1.prom_cells k c hc
      have hip : ∀ pid, lookupA s1.promises n = some pid → c ≠ pid := by
        intro pid hpid hcp
        subst hcp
        exact hk (hg1.prom_inj k n c hc hpid)
      refine ⟨by omega, ?_⟩
      rw [hk_other c (by omega) hip]
      exact h2.2
  · intro i hk
    by_cases hi : i = s1.cells.length
    · rw [hi, hk_rid] at hk
      exact absurd hk (by simp)
    · have hip : ∀ pid, lookupA s1.promises n = some pid → i ≠ pid := by
        intro pid hpid hcp
        rw [hcp, hk_pid pid hpid] at hk
        exact absurd hk (by simp)
      rw [hk_other i hi hip] at hk
      rw [hstate4]
      exact hg1.ext_pending i hk
  · intro k e he
    rw [hres4] at he
    by_cases hk : k = n
    · rw [if_pos hk] at he
      have he' : e = ⟨req, p, s1.cells.length⟩ := by injection he with he; rw [he]
      subst he'
      refine ⟨by rw [hlen4]; show s1.cells.length < s1.cells.length + 1; omega, ids,
        by rw [hk]; exact hk_rid, hlen, ?_, ?_⟩
      · intro pr hpr
        exact depmono pr.1 pr.2 (hzip pr hpr)
      · intro d hd
        exact hids_lt d hd
    · rw [if_neg hk] at he
      obtain ⟨hb, deps, hkind, hlend, hdep, hlt⟩ := hg1.res_cell k e he
      have hip : ∀ pid, lookupA s1.promises n = some pid → e.promise ≠ pid := by
        intro pid hpid hcp
        rw [hcp, hext_pid pid hpid] at hkind
        exact absurd hkind (by simp)
      refine ⟨by omega, deps, ?_, hlend, ?_, hlt⟩
      · rw [hk_other e.promise (by omega) hip]
        exact hkind
      · intro pr hpr
        exact depmono pr.1 pr.2 (hdep pr hpr)
  · intro i deps' k' p' hk
    by_cases hi : i = s1.cells.length
    · subst hi
      rw [hk_rid] at hk
      injection hk with h1 h2 h3
      subst h2
      exact ⟨⟨req, p, s1.cells.length⟩, by rw [hres4, if_pos rfl], rfl⟩
    · have hip : ∀ pid, lookupA s1.promises n = some pid → i ≠ pid := by
        intro pid hpid hcp
        rw [hcp, hk_pid pid hpid] at hk
        exact absurd hk (by simp)
      rw [hk_other i hi hip] at hk
      obtain ⟨e', he', hpr⟩ := hg1.allThen_owner i deps' k' p' hk
      have hk'n : k' ≠ n := by
        intro hc
        rw [hc, hres_n] at he'
        exact absurd he' (by simp)
      exact ⟨e', by rw [hres4, if_neg hk'n]; exact he', hpr⟩
  · intro i t o hk hst
    rw [hstate4] at hst
    by_cases hi : i = s1.cells.length
    · rw [hi, hk_rid] at hk
      exact absurd hk (by simp)
    · have hip : ∀ pid, lookupA s1.promises n = some pid → i ≠ pid := by
        intro pid hpid hcp
        rw [hcp] at hst
        rw [hg1.ext_pending pid (hext_pid pid hpid)] at hst
        exact absurd hst (by simp)
      rw [hk_other i hi hip] at hk
      rw [hstate4]
      exact hg1.link_settled i t o hk hst

/-! ## Equations for `declareResource` and `stepMicro` -/

theorem declareResource_dup {s : LState V E} {n : String} {req : List String}
    {p : List V → Except E V} (h : (lookupA s.resources n).isSome) :
    declareResource s n req p = .error .duplicateName := by
  unfold declareResource
  rw [if_pos h]

theorem declareResource_eq_ok {s : LState V E} {n : String} {req : List String}
    {p : List V → Except E V} (hn : lookupA s.resources n = none) :
    declareResource s n req p = .ok (addEntry (settleSlot (addResourceCell
      (promisesFor s req).2 (promisesFor s req).1 n p) n
      (promisesFor s req).2.cells.length) n req p
      (promisesFor s req).2.cells.length) := by
  unfold declareResource
  rw [hn]
  rfl

theorem promiseFor_stateOf {s : LState V E} {n : String} {i : Nat} :
    (promiseFor s n).2.stateOf i = s.stateOf i := by
  cases hr : lookupA s.resources n with
  | some e =>
    rw [promiseFor_res hr]
  | none =>
    cases hp : lookupA s.promises n with
    | some pid => rw [promiseFor_prom hr hp]
    | none =>
      rw [promiseFor_new hr hp]
      exact extendSlot_stateOf

theorem promiseFor_kindOf {s : LState V E} {n : String} {i : Nat} :
    (promiseFor s n).2.kindOf i = s.kindOf i := by
  cases hr : lookupA s.resources n with
  | some e =>
    rw [promiseFor_res hr]
  | none =>
    cases hp : lookupA s.promises n with
    | some pid => rw [promiseFor_prom hr hp]
    | none =>
      rw [promiseFor_new hr hp]
      exact extendSlot_kindOf

theorem promisesFor_stateOf {s : LState V E} {ns : List String} {i : Nat} :
    (promisesFor s ns).2.stateOf i = s.stateOf i := by
  induction ns generalizing s with
  | nil => rfl
  | cons n ns ih =>
    show (promisesFor (promiseFor s n).2 ns).2.stateOf i = _
    rw [ih, promiseFor_stateOf]

theorem promisesFor_kindOf {s : LState V E} {ns : List String} {i : Nat} :
    (promisesFor s ns).2.kindOf i = s.kindOf i := by
  induction ns generalizing s with
  | nil => rfl
  | cons n ns ih =>
    show (promisesFor (promiseFor s n).2 ns).2.kindOf i = _
    rw [ih, promiseFor_kindOf]

theorem declareResource_ok {s : LState V E} {n : String} {req : List String}
    {p : List V → Except E V} (hg : Good s) (hn : lookupA s.resources n = none) :
    ∃ s', declareResource s n req p = .ok s' ∧ Good s' ∧ Steps s s' ∧
      (∀ d c, DepCell s d c → DepCell s' d c) ∧
      (∀ k, lookupA s'.resources k =
        if k = n then some ⟨req, p, (promisesFor s req).2.cells.length⟩
        else lookupA s.resources k) ∧
      lookupA s'.promises n = none ∧
      (∀ i, s'.stateOf i = s.stateOf i) ∧
      (∀ i deps' n' p', s'.kindOf i = .allThen deps' n' p' →
        s.kindOf i = .allThen deps' n' p' ∨ s'.stateOf i = .pending) := by
  obtain ⟨hg1, hs1, hres1, hmono1, hlen1, hzip1⟩ := promisesFor_spec req hg
  have hres_n1 : lookupA (promisesFor s req).2.resources n = none := by
    rw [hres1]
    exact hn
  obtain ⟨hgood, hsteps, hdep, hres, hprom, hstate, hkrev⟩ :=
    declare_core (p := p) hg1 hres_n1 hlen1 hzip1
  refine ⟨_, declareResource_eq_ok hn, hgood, Steps.comp hs1 hsteps,
    fun d c h => hdep d c (hmono1 d c h), ?_, ?_, ?_, ?_⟩
  · intro k
    rw [hres k, hres1]
  · rw [hprom n, if_pos rfl]
  · intro i
    rw [hstate i, promisesFor_stateOf]
  · intro i deps' n' p' hk
    rcases hkrev i deps' n' p' hk with h | h
    · rw [promisesFor_kindOf] at h
      exact Or.inl h
    · exact Or.inr h

theorem stepMicro_char (s : LState V E) (i : Nat) :
    (stepMicro s i = (s, [])) ∨
    (∃ t o, s.kindOf i = .link t ∧ s.stateOf i = .pending ∧
      s.stateOf t = .settled o ∧ stepMicro s i = (setSt s i (.settled o), [])) ∨
    (∃ deps owner p e, s.kindOf i = .allThen deps owner p ∧ s.stateOf i = .pending ∧
      firstRejected s deps = some e ∧
      stepMicro s i = (setSt s i (.settled (.err e)), [])) ∨
    (∃ deps owner p vs, s.kindOf i = .allThen deps owner p ∧ s.stateOf i = .pending ∧
      firstRejected s deps = none ∧ allFulfilled s deps = some vs ∧
      stepMicro s i = (setSt s i (.settled (outcomeOf (p vs))), [⟨owner, vs⟩])) := by
  unfold stepMicro
  split
  next o hst => exact Or.inl rfl
  next hst =>
    split
    next hk => exact Or.inl rfl
    next t hk =>
      split
      next o hts => exact Or.inr (Or.inl ⟨t, o, hk, hst, hts, rfl⟩)
      next hts => exact Or.inl rfl
    next deps owner p hk =>
      split
      next e hfr => exact Or.inr (Or.inr (Or.inl ⟨deps, owner, p, e, hk, hst, hfr, rfl⟩))
      next hfr =>
        split
        next vs haf =>
          exact Or.inr (Or.inr (Or.inr ⟨deps, owner, p, vs, hk, hst, hfr, haf, rfl⟩))
        next haf => exact Or.inl rfl

theorem steps_stepMicro {s : LState V E} {i : Nat} : Steps s (stepMicro s i).1 := by
  rcases stepMicro_char s i with h | ⟨t, o, hk, hst, hts, h⟩ |
    ⟨deps, ow, p, e, hk, hst, hfr, h⟩ | ⟨deps, ow, p, vs, hk, hst, hfr, haf, h⟩
  · rw [h]
    exact Steps.rfl
  · rw [h]
    exact steps_setSt hst
  · rw [h]
    exact steps_setSt hst
  · rw [h]
    exact steps_setSt hst

theorem depCell_setSt {s : LState V E} {i : Nat} {st : CState V E} {d : String} {c : Nat}
    (h : DepCell s d c) : DepCell (setSt s i st) d c := by
  obtain ⟨hb, hcase⟩ := h
  refine ⟨by rw [setSt_len]; omega, ?_⟩
  rcases hcase with ⟨e', he', hor⟩ | ⟨hpp, hke⟩
  · refine Or.inl ⟨e', he', ?_⟩
    rcases hor with h' | h'
    · exact Or.inl h'
    · exact Or.inr (by rw [setSt_kindOf]; exact h')
  · exact Or.inr ⟨hpp, by rw [setSt_kindOf]; exact hke⟩

theorem good_setSt {s : LState V E} {i : Nat} {o : Outcome V E} (hg : Good s)
    (hst : s.stateOf i = .pending)
    (hknotext : s.kindOf i ≠ .external)
    (hlink : ∀ t, s.kindOf i = .link t → ∃ o', s.stateOf t = .settled o' ∧ o = o') :
    Good (setSt s i (.settled o)) := by
  refine ⟨hg.res_nodup, hg.prom_nodup, hg.disj, hg.prom_inj, ?_, ?_, ?_, ?_, ?_⟩
  · intro n c hc
    have h2 := hg.prom_cells n c hc
    exact ⟨by rw [setSt_len]; omega, by rw [setSt_kindOf]; exact h2.2⟩
  · intro j hk
    rw [setSt_kindOf] at hk
    have hji : j ≠ i := by
      intro hc
      rw [hc] at hk
      exact hknotext hk
    rw [setSt_stateOf_ne hji]
    exact hg.ext_pending j hk
  · intro n e he
    obtain ⟨hb, deps, hkind, hlend, hdep, hlt⟩ := hg.res_cell n e he
    refine ⟨by rw [setSt_len]; omega, deps, by rw [setSt_kindOf]; exact hkind, hlend, ?_, hlt⟩
    intro pr hpr
    exact depCell_setSt (hdep pr hpr)
  · intro j deps n p hk
    rw [setSt_kindOf] at hk
    exact hg.allThen_owner j deps n p hk
  · intro j t o' hk hsj
    rw [setSt_kindOf] at hk
    by_cases hji : j = i
    · subst hji
      obtain ⟨o'', hts, ho⟩ := hlink t hk
      subst ho
      have hti : t ≠ j := by
        intro hc
        rw [hc, hst] at hts
        exact absurd hts (by simp)
      have hilt : j < s.cells.length := by
        by_contra hge
        rw [kindOf_oob (by omega)] at hk
        exact absurd hk (by simp)
      rw [setSt_stateOf_self hilt] at hsj
      have ho' : o' = o := by
        injection hsj with h
        rw [h]
      subst ho'
      rw [setSt_stateOf_ne hti]
      exact hts
    · rw [setSt_stateOf_ne hji] at hsj
      have h2 := hg.link_settled j t o' hk hsj
      have hti : t ≠ i := by
        intro hc
        rw [hc, hst] at h2
        exact absurd h2 (by simp)
      rw [setSt_stateOf_ne hti]
      exact h2

theorem good_stepMicro {s : LState V E} {i : Nat} (hg : Good s) :
    Good (stepMicro s i).1 := by
  rcases stepMicro_char s i with h | ⟨t, o, hk, hst, hts, h⟩ |
    ⟨deps, ow, p, e, hk, hst, hfr, h⟩ | ⟨deps, ow, p, vs, hk, hst, hfr, haf, h⟩
  · rw [h]
    exact hg
  · rw [h]
    refine good_setSt hg hst (by rw [hk]; simp) ?_
    intro t' ht'
    rw [hk] at ht'
    injection ht' with h'
    subst h'
    exact ⟨o, hts, rfl⟩
  · rw [h]
    refine good_setSt hg hst (by rw [hk]; simp) ?_
    intro t' ht'
    rw [hk] at ht'
    exact absurd ht' (by simp)
  · rw [h]
    refine good_setSt hg hst (by rw [hk]; simp) ?_
    intro t' ht'
    rw [hk] at ht'
    exact absurd ht' (by simp)

/-! ## Reachable states are Good -/

theorem good_init : Good (LState.init : LState V E) := by
  refine ⟨List.nodup_nil, List.nodup_nil, ?_, ?_, ?_, ?_, ?_, ?_, ?_⟩
  · intro n h1 h2
    exact absurd h1 (by simp [lookupA, LState.init])
  · intro n₁ n₂ c h1 h2
    exact absurd h1 (by simp [lookupA, LState.init])
  · intro n c hc
    exact absurd hc (by simp [lookupA, LState.init])
  · intro i hk
    exact stateOf_oob (by simp [LState.init])
  · intro n e he
    exact absurd he (by simp [lookupA, LState.init])
  · intro i deps n p hk
    rw [kindOf_oob (by simp [LState.init])] at hk
    exact absurd hk (by simp)
  · intro i t o hk hst
    rw [kindOf_oob (by simp [LState.init])] at hk
    exact absurd hk (by simp)

theorem stepA_good {s : LState V E} (a : Action V E) (hg : Good s) :
    Good (stepA s a).1 := by
  cases a with
  | declare n req p =>
    cases hn : lookupA s.resources n with
    | some e =>
      show Good (match declareResource s n req p with
        | .ok s' => (s', ([] : List (Event V)))
        | .error _ => (s, [])).1
      rw [declareResource_dup (by rw [hn]; rfl)]
      exact hg
    | none =>
      obtain ⟨s', heq, hgood, _⟩ := declareResource_ok (p := p) hg hn
      show Good (match declareResource s n req p with
        | .ok s' => (s', ([] : List (Event V)))
        | .error _ => (s, [])).1
      rw [heq]
      exact hgood
  | request n =>
    exact (promiseFor_spec n hg).1
  | micro i =>
    exact good_stepMicro hg

theorem stepA_steps {s : LState V E} (a : Action V E) (hg : Good s) :
    Steps s (stepA s a).1 := by
  cases a with
  | declare n req p =>
    cases hn : lookupA s.resources n with
    | some e =>
      show Steps s (match declareResource s n req p with
        | .ok s' => (s', ([] : List (Event V)))
        | .error _ => (s, [])).1
      rw [declareResource_dup (by rw [hn]; rfl)]
      exact Steps.rfl
    | none =>
      obtain ⟨s', heq, _, hsteps, _⟩ := declareResource_ok (p := p) hg hn
      show Steps s (match declareResource s n req p with
        | .ok s' => (s', ([] : List (Event V)))
        | .error _ => (s, [])).1
      rw [heq]
      exact hsteps
  | request n =>
    exact (promiseFor_spec n hg).2.1
  | micro i =>
    exact steps_stepMicro

theorem stepA_depCell {s : LState V E} (a : Action V E) (hg : Good s)
    {d : String} {c : Nat} (h : DepCell s d c) : DepCell (stepA s a).1 d c := by
  cases a with
  | declare n req p =>
    cases hn : lookupA s.resources n with
    | some e =>
      show DepCell (match declareResource s n req p with
        | .ok s' => (s', ([] : List (Event V)))
        | .error _ => (s, [])).1 d c
      rw [declareResource_dup (by rw [hn]; rfl)]
      exact h
    | none =>
      obtain ⟨s', heq, _, _, hdep, _⟩ := declareResource_ok (p := p) hg hn
      show DepCell (match declareResource s n req p with
        | .ok s' => (s', ([] : List (Event V)))
        | .error _ => (s, [])).1 d c
      rw [heq]
      exact hdep d c h
  | request n =>
    exact (promiseFor_spec n hg).2.2.2.1 d c h
  | micro i =>
    show DepCell (stepMicro s i).1 d c
    rcases stepMicro_char s i with heq | ⟨t, o, hk, hst, hts, heq⟩ |
      ⟨deps, ow, p, e, hk, hst, hfr, heq⟩ | ⟨deps, ow, p, vs, hk, hst, hfr, haf, heq⟩
    · rw [heq]
      exact h
    · rw [heq]
      exact depCell_setSt h
    · rw [heq]
      exact depCell_setSt h
    · rw [heq]
      exact depCell_setSt h

theorem runFrom_cons {s : LState V E} {a : Action V E} {as : List (Action V E)} :
    runFrom s (a :: as) =
      ((runFrom (stepA s a).1 as).1, (stepA s a).2 ++ (runFrom (stepA s a).1 as).2) := rfl

theorem runFrom_good {s : LState V E} (as : List (Action V E)) (hg : Good s) :
    Good (runFrom s as).1 := by
  induction as generalizing s with
  | nil => exact hg
  | cons a as ih =>
    rw [runFrom_cons]
    exact ih (stepA_good a hg)

theorem runFrom_steps {s : LState V E} (as : List (Action V E)) (hg : Good s) :
    Steps s (runFrom s as).1 := by
  induction as generalizing s with
  | nil => exact Steps.rfl
  | cons a as ih =>
    rw [runFrom_cons]
    exact Steps.comp (stepA_steps a hg) (ih (stepA_good a hg))

theorem runFrom_depCell {s : LState V E} (as : List (Action V E)) (hg : Good s)
    {d : String} {c : Nat} (h : DepCell s d c) : DepCell (runFrom s as).1 d c := by
  induction as generalizing s with
  | nil => exact h
  | cons a as ih =>
    rw [runFrom_cons]
    exact ih (stepA_good a hg) (stepA_depCell a hg h)

theorem good_runS (as : List (Action V E)) : Good (runS as) :=
  runFrom_good as good_init

theorem runFrom_append {s : LState V E} (as bs : List (Action V E)) :
    runFrom s (as ++ bs) =
      ((runFrom (runFrom s as).1 bs).1,
       (runFrom s as).2 ++ (runFrom (runFrom s as).1 bs).2) := by
  induction as generalizing s with
  | nil => rfl
  | cons a as ih =>
    show ((runFrom (stepA s a).1 (as ++ bs)).1,
          (stepA s a).2 ++ (runFrom (stepA s a).1 (as ++ bs)).2) = _
    rw [ih]
    simp [runFrom_cons, List.append_assoc]

/-! ## Semantics of the dependency scans -/

theorem firstRejected_some_mem {s : LState V E} {ds : List Nat} {e : E}
    (h : firstRejected s ds = some e) :
    ∃ d, d ∈ ds ∧ s.stateOf d = .settled (.err e) := by
  induction ds with
  | nil => exact absurd h (by simp [firstRejected])
  | cons d ds ih =>
    unfold firstRejected at h
    split at h
    · next e' hst =>
      injection h with h
      subst h
      exact ⟨d, by simp, hst⟩
    · next hst =>
      obtain ⟨d', hd', hst'⟩ := ih h
      exact ⟨d', by simp [hd'], hst'⟩

theorem firstRejected_isSome_of_mem {s : LState V E} {ds : List Nat} {d : Nat} {e : E}
    (hd : d ∈ ds) (hst : s.stateOf d = .settled (.err e)) :
    ∃ e', firstRejected s ds = some e' := by
  induction ds with
  | nil => exact absurd hd (by simp)
  | cons d' ds ih =>
    unfold firstRejected
    split
    · next e' hst' => exact ⟨e', rfl⟩
    · next hne =>
      rcases List.mem_cons.mp hd with hd' | hd'
      · subst hd'
        exact absurd hst (by intro hc; exact hne e hc)
      · exact ih hd'

theorem allFulfilled_some_spec {s : LState V E} {ds : List Nat} {vs : List V}
    (h : allFulfilled s ds = some vs) :
    vs.length = ds.length ∧ ∀ pr ∈ ds.zip vs, s.stateOf pr.1 = .settled (.ok pr.2) := by
  induction ds generalizing vs with
  | nil =>
    have h' : vs = [] := by
      unfold allFulfilled at h
      injection h with h
      rw [← h]
    subst h'
    exact ⟨rfl, by intro pr hpr; simp at hpr⟩
  | cons d ds ih =>
    unfold allFulfilled at h
    split at h
    · next v hst =>
      split at h
      · next vs' hvs' =>
        injection h with h
        subst h
        obtain ⟨hl, hz⟩ := ih hvs'
        refine ⟨by simp [hl], ?_⟩
        intro pr hpr
        rw [List.zip_cons_cons, List.mem_cons] at hpr
        rcases hpr with hpr | hpr
        · subst hpr
          exact hst
        · exact hz pr hpr
      · next => exact absurd h (by simp)
    · next => exact absurd h (by simp)

theorem allFulfilled_exists_of_all {s : LState V E} {ds : List Nat}
    (h : ∀ d ∈ ds, ∃ v, s.stateOf d = .settled (.ok v)) :
    ∃ vs, allFulfilled s ds = some vs := by
  induction ds with
  | nil => exact ⟨[], rfl⟩
  | cons d ds ih =>
    obtain ⟨v, hv⟩ := h d (by simp)
    obtain ⟨vs, hvs⟩ := ih (fun d' hd' => h d' (by simp [hd']))
    refine ⟨v :: vs, ?_⟩
    unfold allFulfilled
    rw [show (s.getCell d).state = .settled (.ok v) from hv, hvs]

theorem firstRejected_none_of_all_ok {s : LState V E} {ds : List Nat}
    (h : ∀ d ∈ ds, ∃ v, s.stateOf d = .settled (.ok v)) :
    firstRejected s ds = none := by
  induction ds with
  | nil => rfl
  | cons d ds ih =>
    obtain ⟨v, hv⟩ := h d (by simp)
    unfold firstRejected
    rw [show (s.getCell d).state = .settled (.ok v) from hv]
    exact ih (fun d' hd' => h d' (by simp [hd']))

/-! ## Counting producer invocations -/

theorem countInvoke_append {r : String} {evs evs' : List (Event V)} :
    countInvoke r (evs ++ evs') = countInvoke r evs + countInvoke r evs' := by
  simp [countInvoke, List.filter_append]

theorem countInvoke_single {r ow : String} {vs : List V} :
    countInvoke r [⟨ow, vs⟩] = if ow = r then 1 else 0 := by
  by_cases h : ow = r
  · have hb : (ow == r) = true := by simp [h]
    simp [countInvoke, List.filter, hb, h]
  · have hb : (ow == r) = false := by simp [h]
    simp [countInvoke, List.filter, hb, h]

/-! ## Bounds from cell kinds -/

theorem lt_of_kind_link {s : LState V E} {i t : Nat} (hk : s.kindOf i = .link t) :
    i < s.cells.length := by
  by_contra hge
  rw [kindOf_oob (by omega)] at hk
  exact absurd hk (by simp)

theorem lt_of_kind_allThen {s : LState V E} {i : Nat} {deps : List Nat} {n : String}
    {p : List V → Except E V} (hk : s.kindOf i = .allThen deps n p) :
    i < s.cells.length := by
  by_contra hge
  rw [kindOf_oob (by omega)] at hk
  exact absurd hk (by simp)

/-! ## Trace invariants are preserved along every run -/

theorem settledCause_transfer {s s' : LState V E} {evs : List (Event V)}
    (hstate : ∀ i, s'.stateOf i = s.stateOf i)
    (hkrev : ∀ i deps n p, s'.kindOf i = .allThen deps n p →
      s.kindOf i = .allThen deps n p ∨ s'.stateOf i = .pending)
    (h : SettledCause s evs) : SettledCause s' evs := by
  intro i deps n p o hk hst
  rcases hkrev i deps n p hk with hk' | hpend
  · rw [hstate] at hst
    rcases h i deps n p o hk' hst with ⟨⟨d, e, hd, ho, hde⟩, hcnt⟩ | ⟨vs, h1, h2, h3, h4⟩
    · exact Or.inl ⟨⟨d, e, hd, ho, by rw [hstate]; exact hde⟩, hcnt⟩
    · exact Or.inr ⟨vs, h1, fun pr hpr => by rw [hstate]; exact h2 pr hpr, h3, h4⟩
  · rw [hpend] at hst
    exact absurd hst (by simp)

theorem onceInv_transfer {s s' : LState V E} {evs : List (Event V)}
    (hres : ∀ n e, lookupA s.resources n = some e → lookupA s'.resources n = some e)
    (hsm : ∀ i o, s.stateOf i = .settled o → s'.stateOf i = .settled o)
    (h : OnceInv s evs) : OnceInv s' evs := by
  intro r hr
  obtain ⟨e, o, he, hst, hc⟩ := h r hr
  exact ⟨e, o, hres r e he, hsm e.promise o hst, hc⟩

theorem stepA_trace {s : LState V E} {evs : List (Event V)} (a : Action V E)
    (hg : Good s) (hsc : SettledCause s evs) (hoi : OnceInv s evs) :
    SettledCause (stepA s a).1 (evs ++ (stepA s a).2) ∧
    OnceInv (stepA s a).1 (evs ++ (stepA s a).2) := by
  cases a with
  | declare n req p =>
    have hev : (stepA s (Action.declare n req p)).2 = [] := by
      show (match declareResource s n req p with
        | .ok s' => (s', ([] : List (Event V)))
        | .error _ => (s, [])).2 = []
      cases declareResource s n req p <;> rfl
    rw [hev, List.append_nil]
    cases hn : lookupA s.resources n with
    | some e =>
      have hst : (stepA s (Action.declare n req p)).1 = s := by
        show (match declareResource s n req p with
          | .ok s' => (s', ([] : List (Event V)))
          | .error _ => (s, [])).1 = s
        rw [declareResource_dup (by rw [hn]; rfl)]
      rw [hst]
      exact ⟨hsc, hoi⟩
    | none =>
      obtain ⟨s', heq, hgood, hsteps, _, _, _, hstate, hkrev⟩ :=
        declareResource_ok (p := p) hg hn
      have hst : (stepA s (Action.declare n req p)).1 = s' := by
        show (match declareResource s n req p with
          | .ok s' => (s', ([] : List (Event V)))
          | .error _ => (s, [])).1 = s'
        rw [heq]
      rw [hst]
      exact ⟨settledCause_transfer hstate hkrev hsc,
        onceInv_transfer hsteps.res_mono hsteps.settled_mono hoi⟩
  | request n =>
    have hev : (stepA s (Action.request n)).2 = [] := rfl
    rw [hev, List.append_nil]
    show SettledCause (promiseFor s n).2 evs ∧ OnceInv (promiseFor s n).2 evs
    refine ⟨settledCause_transfer (fun i => promiseFor_stateOf)
      (fun i deps n' p' hk => Or.inl (by rw [promiseFor_kindOf] at hk; exact hk)) hsc, ?_⟩
    exact onceInv_transfer (promiseFor_spec n hg).2.1.res_mono
      (promiseFor_spec n hg).2.1.settled_mono hoi
  | micro i =>
    show SettledCause (stepMicro s i).1 (evs ++ (stepMicro s i).2) ∧
      OnceInv (stepMicro s i).1 (evs ++ (stepMicro s i).2)
    rcases stepMicro_char s i with heq | ⟨t, o, hk, hst, hts, heq⟩ |
      ⟨deps, ow, p, e, hk, hst, hfr, heq⟩ | ⟨deps, ow, p, vs, hk, hst, hfr, haf, heq⟩
    · rw [heq]
      simp only [List.append_nil]
      exact ⟨hsc, hoi⟩
    · rw [heq]
      simp only [List.append_nil]
      have hsteps : Steps s (setSt s i (.settled o)) := steps_setSt hst
      refine ⟨?_, onceInv_transfer hsteps.res_mono hsteps.settled_mono hoi⟩
      intro j deps' n' p' o' hkj hsj
      rw [setSt_kindOf] at hkj
      have hji : j ≠ i := by
        intro hc
        rw [hc, hk] at hkj
        exact absurd hkj (by simp)
      rw [setSt_stateOf_ne hji] at hsj
      rcases hsc j deps' n' p' o' hkj hsj with ⟨⟨d, e, hd, ho, hde⟩, hcnt⟩ | ⟨vs, h1, h2, h3, h4⟩
      · exact Or.inl ⟨⟨d, e, hd, ho, hsteps.settled_mono d _ hde⟩, hcnt⟩
      · exact Or.inr ⟨vs, h1, fun pr hpr => hsteps.settled_mono pr.1 _ (h2 pr hpr), h3, h4⟩
    · rw [heq]
      simp only [List.append_nil]
      have hsteps : Steps s (setSt s i (.settled (.err e))) := steps_setSt hst
      have hilt : i < s.cells.length := lt_of_kind_allThen hk
      refine ⟨?_, onceInv_transfer hsteps.res_mono hsteps.settled_mono hoi⟩
      intro j deps' n' p' o' hkj hsj
      rw [setSt_kindOf] at hkj
      obtain ⟨e0, he0, hpr0⟩ := hg.allThen_owner i deps ow p hk
      by_cases hji : j = i
      · subst hji
        rw [hk] at hkj
        injection hkj with h1 h2 h3
        subst h1
        subst h2
        rw [setSt_stateOf_self hilt] at hsj
        have ho' : o' = .err e := by
          injection hsj with h
          rw [h]
        subst ho'
        obtain ⟨d, hd, hde⟩ := firstRejected_some_mem hfr
        refine Or.inl ⟨⟨d, e, hd, rfl, hsteps.settled_mono d _ hde⟩, ?_⟩
        by_contra hc
        have hge : 1 ≤ countInvoke ow evs := by omega
        obtain ⟨e', o'', he', hst', _⟩ := hoi ow hge
        have hee : e' = e0 := by
          rw [he0] at he'
          injection he' with h
          rw [h]
        subst hee
        rw [hpr0, hst] at hst'
        exact absurd hst' (by simp)
      · rw [setSt_stateOf_ne hji] at hsj
        rcases hsc j deps' n' p' o' hkj hsj with ⟨⟨d, e', hd, ho, hde⟩, hcnt⟩ | ⟨vs, h1, h2, h3, h4⟩
        · exact Or.inl ⟨⟨d, e', hd, ho, hsteps.settled_mono d _ hde⟩, hcnt⟩
        · exact Or.inr ⟨vs, h1, fun pr hpr => hsteps.settled_mono pr.1 _ (h2 pr hpr), h3, h4⟩
    · rw [heq]
      have hsteps : Steps s (setSt s i (.settled (outcomeOf (p vs)))) := steps_setSt hst
      have hilt : i < s.cells.length := lt_of_kind_allThen hk
      obtain ⟨e0, he0, hpr0⟩ := hg.allThen_owner i deps ow p hk
      have hcount0 : countInvoke ow evs = 0 := by
        by_contra hc
        have hge : 1 ≤ countInvoke ow evs := by omega
        obtain ⟨e', o', he', hst', _⟩ := hoi ow hge
        have hee : e' = e0 := by
          rw [he0] at he'
          injection he' with h
          rw [h]
        subst hee
        rw [hpr0, hst] at hst'
        exact absurd hst' (by simp)
      constructor
      · intro j deps' n' p' o' hkj hsj
        rw [setSt_kindOf] at hkj
        by_cases hji : j = i
        · subst hji
          rw [hk] at hkj
          injection hkj with h1 h2 h3
          subst h1
          subst h2
          subst h3
          rw [setSt_stateOf_self hilt] at hsj
          have ho' : o' = outcomeOf (p vs) := by
            injection hsj with h
            rw [h]
          subst ho'
          obtain ⟨hlv, hzv⟩ := allFulfilled_some_spec haf
          refine Or.inr ⟨vs, hlv, ?_, rfl, ?_⟩
          · intro pr hpr
            exact hsteps.settled_mono pr.1 _ (hzv pr hpr)
          · rw [countInvoke_append, countInvoke_single, if_pos rfl]
            omega
        · rw [setSt_stateOf_ne hji] at hsj
          rcases hsc j deps' n' p' o' hkj hsj with ⟨⟨d, e', hd, ho, hde⟩, hcnt⟩ | ⟨ws, h1, h2, h3, h4⟩
          · refine Or.inl ⟨⟨d, e', hd, ho, hsteps.settled_mono d _ hde⟩, ?_⟩
            have hown : ow ≠ n' := by
              intro hc
              obtain ⟨e1, he1, hpr1⟩ := hg.allThen_owner j deps' n' p' hkj
              rw [← hc] at he1
              rw [he0] at he1
              injection he1 with h
              rw [← h] at hpr1
              rw [hpr0] at hpr1
              exact hji hpr1.symm
            rw [countInvoke_append, countInvoke_single, if_neg hown, hcnt]
          · refine Or.inr ⟨ws, h1, fun pr hpr => hsteps.settled_mono pr.1 _ (h2 pr hpr), h3, ?_⟩
            rw [countInvoke_append]
            omega
      · intro r hr
        rw [countInvoke_append, countInvoke_single] at hr
        by_cases hor : ow = r
        · subst hor
          refine ⟨e0, outcomeOf (p vs), hsteps.res_mono ow e0 he0, ?_, ?_⟩
          · rw [hpr0, setSt_stateOf_self hilt]
          · rw [countInvoke_append, countInvoke_single, if_pos rfl, hcount0]
        · rw [if_neg hor] at hr
          have hr' : 1 ≤ countInvoke r evs := by omega
          obtain ⟨e', o', he', hst', hc'⟩ := hoi r hr'
          refine ⟨e', o', hsteps.res_mono r e' he', hsteps.settled_mono e'.promise o' hst', ?_⟩
          rw [countInvoke_append, countInvoke_single, if_neg hor, hc']

theorem runFrom_trace {s : LState V E} {evs : List (Event V)} (as : List (Action V E))
    (hg : Good s) (hsc : SettledCause s evs) (hoi : OnceInv s evs) :
    SettledCause (runFrom s as).1 (evs ++ (runFrom s as).2) ∧
    OnceInv (runFrom s as).1 (evs ++ (runFrom s as).2) := by
  induction as generalizing s evs with
  | nil =>
    rw [show (runFrom s [] : LState V E × List (Event V)) = (s, []) from rfl]
    rw [List.append_nil]
    exact ⟨hsc, hoi⟩
  | cons a as ih =>
    rw [runFrom_cons]
    obtain ⟨hsc', hoi'⟩ := stepA_trace a hg hsc hoi
    have h := ih (stepA_good a hg) hsc' hoi'
    rw [List.append_assoc] at h
    exact h

theorem trace_runS (as : List (Action V E)) :
    SettledCause (runS as) (runEv as) ∧ OnceInv (runS as) (runEv as) := by
  have hsc0 : SettledCause (LState.init : LState V E) [] := by
    intro i deps n p o hk hst
    rw [kindOf_oob (by simp [LState.init])] at hk
    exact absurd hk (by simp)
  have hoi0 : OnceInv (LState.init : LState V E) [] := by
    intro r hr
    exact absurd hr (by simp [countInvoke])
  have h := runFrom_trace as good_init hsc0 hoi0
  rw [List.nil_append] at h
  exact h

/-! ## Characterization of the constructor under a valid name and requires -/

theorem construct_char (d : DefObj V E) (hname : (d.get "name").truthy = true)
    {rs : List (JVal V E)} (hreq : normRequires (d.get "requires") = .ok rs) :
    construct d = (
      if !(d.get (d.get "name").keyOf).isUndef &&
          (!(d.get "json").isUndef || !(d.get "script").isUndef) then
        .error .invalidResource
      else if !(d.get "script").isUndef then
        match d.get "script" with
        | .str url => .ok ⟨(d.get "name").keyOf, rs, .script url
            (if (d.get "getScript").isFunction then .custom (d.get "getScript")
             else .builtinScript)⟩
        | _ => .error .invalidUrl
      else if !(d.get "json").isUndef then
        match d.get "json" with
        | .str url => .ok ⟨(d.get "name").keyOf, rs, .json url
            (if (d.get "ajax").isFunction then .custom (d.get "ajax")
             else .builtinJson)⟩
        | _ => .error .invalidUrl
      else
        match d.get (d.get "name").keyOf with
        | .fn f => .ok ⟨(d.get "name").keyOf, rs, .explicitFn f⟩
        | _ => .error .invalidProvider) := by
  simp only [construct, hname, hreq, Bool.not_true, Bool.false_eq_true, if_false]

theorem construct_requires {d : DefObj V E} {r : ResourceR V E}
    (hc : construct d = .ok r) : normRequires (d.get "requires") = .ok r.requires := by
  simp only [construct] at hc
  split at hc
  · exact absurd hc (by simp)
  · split at hc
    · exact absurd hc (by simp)
    · next rs hrs =>
      rw [hrs]
      split at hc
      · exact absurd hc (by simp)
      · split at hc
        · split at hc
          · injection hc with hc
            rw [← hc]
          · exact absurd hc (by simp)
        · split at hc
          · split at hc
            · injection hc with hc
              rw [← hc]
            · exact absurd hc (by simp)
          · split at hc
            · injection hc with hc
              rw [← hc]
            · exact absurd hc (by simp)

/-! ## Claim C4 -/

/-- C4, counterexample: a definition carrying both a `script` and a `json`
field (and no producer function) does not fail construction at all — the
script branch wins and the json field is silently ignored — contradicting
the claim that such a definition fails with InvalidResource. -/
theorem c4_counterexample :
    construct ([("name", .str "x"), ("script", .str "a.js"),
        ("json", .str "b.json")] : DefObj Nat Nat)
      = .ok ⟨"x", [], .script "a.js" .builtinScript⟩ := rfl

/-- C4 (amended): a definition containing both a producer-function field
named after the resource and a `script` or `json` field fails synchronously
with InvalidResource; a definition containing both `script` and `json` but
no producer function does not fail for that reason — the script source
takes precedence, the json field is ignored, and the constructed Resource
still carries exactly one active producer source. -/
theorem c4_conflicting_sources (d : DefObj V E)
    (hname : (d.get "name").truthy = true)
    (rs : List (JVal V E)) (hreq : normRequires (d.get "requires") = .ok rs) :
    ((d.get (d.get "name").keyOf).isUndef = false →
      ((d.get "json").isUndef = false ∨ (d.get "script").isUndef = false) →
      construct d = .error .invalidResource) ∧
    (∀ u, (d.get (d.get "name").keyOf).isUndef = true →
      d.get "script" = .str u → (d.get "json").isUndef = false →
      ∃ mech, construct d = .ok ⟨(d.get "name").keyOf, rs, .script u mech⟩) := by
  constructor
  · intro hp hor
    rw [construct_char d hname hreq]
    have hcond : (!(d.get (d.get "name").keyOf).isUndef &&
        (!(d.get "json").isUndef || !(d.get "script").isUndef)) = true := by
      rcases hor with h | h <;> simp [hp, h]
    simp only [hcond, if_true]
  · intro u hp hs hj
    have hsu : (d.get "script").isUndef = false := by
      rw [hs]
      rfl
    refine ⟨if (d.get "getScript").isFunction then .custom (d.get "getScript")
      else .builtinScript, ?_⟩
    have hstru : (JVal.str u : JVal V E).isUndef = false := rfl
    rw [construct_char d hname hreq]
    simp only [hp, hs, hsu, hstru, Bool.not_true, Bool.false_and,
      Bool.false_eq_true, if_false, Bool.not_false, if_true]

/-- C4 witness: the amended theorem applied to concrete definitions. -/
theorem c4_conflicting_sources_witness :
    construct ([("name", .str "x"), ("x", .fn (pConst 0)),
        ("script", .str "a.js")] : DefObj Nat Nat) = .error .invalidResource ∧
    ∃ mech, construct ([("name", .str "x"), ("script", .str "a.js"),
        ("json", .str "b.json")] : DefObj Nat Nat)
      = .ok ⟨"x", [], .script "a.js" mech⟩ :=
  ⟨(c4_conflicting_sources ([("name", .str "x"), ("x", .fn (pConst 0)),
      ("script", .str "a.js")] : DefObj Nat Nat) rfl [] rfl).1 rfl (Or.inr rfl),
   (c4_conflicting_sources ([("name", .str "x"), ("script", .str "a.js"),
      ("json", .str "b.json")] : DefObj Nat Nat) rfl [] rfl).2 "a.js" rfl rfl rfl⟩

/-! ## Claim C7 -/

/-- C7, counterexample: an array containing a non-string element passes the
constructor unmodified — `Array.isArray` is the only check and element
types are never inspected — contradicting the claim that such a `requires`
fails with InvalidRequires. -/
theorem c7_counterexample :
    construct ([("name", .str "x"), ("requires", .arr [.numv 1]),
        ("x", .fn (pConst 0))] : DefObj Nat Nat)
      = .ok ⟨"x", [.numv 1], .explicitFn (pConst 0)⟩ := rfl

/-- C7 (amended): the constructed Resource's `requires` is exactly the
normalization of the definition's `requires` field: a single string is
wrapped into a one-element array, an absent (falsy) `requires` becomes the
empty array, and a truthy value that is neither a string nor an array —
such as `requires: 1` — fails construction with InvalidRequires; but any
array is accepted as is, its elements are never checked to be strings. -/
theorem c7_requires_validation :
    (∀ (d : DefObj V E) (r : ResourceR V E), construct d = .ok r →
      normRequires (d.get "requires") = .ok r.requires) ∧
    (∀ sv : String, normRequires (V := V) (E := E) (.str sv) = .ok [.str sv]) ∧
    (normRequires (V := V) (E := E) .undef = .ok []) ∧
    (∀ v : JVal V E, v.truthy = true → (∀ sv, v ≠ .str sv) → (∀ xs, v ≠ .arr xs) →
      normRequires v = .error .invalidRequires) ∧
    (∀ xs : List (JVal V E), normRequires (V := V) (E := E) (.arr xs) = .ok xs) := by
  refine ⟨fun d r hc => construct_requires hc, fun sv => rfl, rfl, ?_, fun xs => rfl⟩
  intro v htr hstr harr
  cases v with
  | str sv => exact absurd rfl (hstr sv)
  | arr xs => exact absurd rfl (harr xs)
  | undef => exact absurd htr (by simp [JVal.truthy])
  | nullv => exact absurd htr (by simp [JVal.truthy])
  | fn f => rfl
  | boolv b =>
    simp only [normRequires, htr, Bool.not_true, Bool.false_eq_true, if_false]
  | numv n =>
    simp only [normRequires, htr, Bool.not_true, Bool.false_eq_true, if_false]

/-- C7 witness: the amended theorem applied at concrete inputs. -/
theorem c7_requires_validation_witness :
    normRequires (V := Nat) (E := Nat) (.str "req") = .ok [.str "req"] ∧
    normRequires (V := Nat) (E := Nat) (.numv 1) = .error .invalidRequires ∧
    normRequires (V := Nat) (E := Nat)
      (DefObj.get ([("name", .str "x"), ("requires", .str "req"),
         ("x", .fn (pConst 0))] : DefObj Nat Nat) "requires")
      = .ok (⟨"x", [.str "req"], .explicitFn (pConst 0)⟩ : ResourceR Nat Nat).requires :=
  ⟨c7_requires_validation.2.1 "req",
   c7_requires_validation.2.2.2.1 (.numv 1) rfl
     (by intro sv h; cases h) (by intro xs h; cases h),
   c7_requires_validation.1 ([("name", .str "x"), ("requires", .str "req"),
      ("x", .fn (pConst 0))] : DefObj Nat Nat)
     ⟨"x", [.str "req"], .explicitFn (pConst 0)⟩ rfl⟩

/-! ## Claim C10 -/

/-- C10: a `script` (resp. `json`) definition whose `getScript` (resp.
`ajax`) override field is not callable constructs successfully — the
override is silently ignored and the built-in fetch mechanism is used. -/
theorem c10_noncallable_override_ignored (d : DefObj V E)
    (hname : (d.get "name").truthy = true)
    (rs : List (JVal V E)) (hreq : normRequires (d.get "requires") = .ok rs)
    (hpr : (d.get (d.get "name").keyOf).isUndef = true) :
    (∀ u, d.get "script" = .str u → (d.get "getScript").isFunction = false →
      construct d = .ok ⟨(d.get "name").keyOf, rs, .script u .builtinScript⟩) ∧
    ((d.get "script").isUndef = true → ∀ u, d.get "json" = .str u →
      (d.get "ajax").isFunction = false →
      construct d = .ok ⟨(d.get "name").keyOf, rs, .json u .builtinJson⟩) := by
  constructor
  · intro u hs hgs
    have hsu : (d.get "script").isUndef = false := by
      rw [hs]
      rfl
    have hstru : (JVal.str u : JVal V E).isUndef = false := rfl
    rw [construct_char d hname hreq]
    simp only [hpr, hs, hsu, hgs, hstru, Bool.not_true, Bool.false_and,
      Bool.false_eq_true, if_false, Bool.not_false, if_true]
  · intro hsu u hj haj
    have hju : (d.get "json").isUndef = false := by
      rw [hj]
      rfl
    have hstru : (JVal.str u : JVal V E).isUndef = false := rfl
    rw [construct_char d hname hreq]
    simp only [hpr, hj, hju, hsu, haj, hstru, Bool.not_true, Bool.false_and,
      Bool.and_false, Bool.false_eq_true, if_false, Bool.not_false, if_true]

/-- C10 witness: the theorem applied to concrete script and json
definitions with non-callable overrides. -/
theorem c10_noncallable_override_ignored_witness :
    construct ([("name", .str "x"), ("script", .str "a.js"),
        ("getScript", .numv 3)] : DefObj Nat Nat)
      = .ok ⟨"x", [], .script "a.js" .builtinScript⟩ ∧
    construct ([("name", .str "y"), ("json", .str "b.json"),
        ("ajax", .str "nope")] : DefObj Nat Nat)
      = .ok ⟨"y", [], .json "b.json" .builtinJson⟩ :=
  ⟨(c10_noncallable_override_ignored ([("name", .str "x"), ("script", .str "a.js"),
      ("getScript", .numv 3)] : DefObj Nat Nat) rfl [] rfl rfl).1 "a.js" rfl rfl,
   (c10_noncallable_override_ignored ([("name", .str "y"), ("json", .str "b.json"),
      ("ajax", .str "nope")] : DefObj Nat Nat) rfl [] rfl rfl).2 rfl "b.json" rfl rfl⟩

/-! ## Single microtask equations and readiness -/

theorem stepMicro_adopt {s : LState V E} {i t : Nat} {o : Outcome V E}
    (hst : s.stateOf i = .pending) (hk : s.kindOf i = .link t)
    (hts : s.stateOf t = .settled o) :
    stepMicro s i = (setSt s i (.settled o), []) := by
  simp only [stepMicro, show (s.getCell i).state = CState.pending from hst,
    show (s.getCell i).kind = CKind.link t from hk,
    show (s.getCell t).state = CState.settled o from hts]

theorem stepMicro_reject {s : LState V E} {i : Nat} {deps : List Nat} {ow : String}
    {p : List V → Except E V} {e : E}
    (hst : s.stateOf i = .pending) (hk : s.kindOf i = .allThen deps ow p)
    (hfr : firstRejected s deps = some e) :
    stepMicro s i = (setSt s i (.settled (.err e)), []) := by
  simp only [stepMicro, show (s.getCell i).state = CState.pending from hst,
    show (s.getCell i).kind = CKind.allThen deps ow p from hk, hfr]

theorem stepMicro_fire {s : LState V E} {i : Nat} {deps : List Nat} {ow : String}
    {p : List V → Except E V} {vs : List V}
    (hst : s.stateOf i = .pending) (hk : s.kindOf i = .allThen deps ow p)
    (hfr : firstRejected s deps = none) (haf : allFulfilled s deps = some vs) :
    stepMicro s i = (setSt s i (.settled (outcomeOf (p vs))), [⟨ow, vs⟩]) := by
  simp only [stepMicro, show (s.getCell i).state = CState.pending from hst,
    show (s.getCell i).kind = CKind.allThen deps ow p from hk, hfr, haf]

theorem cellReady_mono {s s' : LState V E} (hs : Steps s s') {c : Nat}
    (h : CellReady s c) : CellReady s' c := by
  rcases h with ⟨o, ho⟩ | ⟨t, o, hkl, ht⟩
  · exact Or.inl ⟨o, hs.settled_mono c o ho⟩
  · exact Or.inr ⟨t, o, hs.kind_link c t hkl, hs.settled_mono t o ht⟩

theorem settlementOf_eq_some {s : LState V E} {d : String} {cst : CState V E}
    (h : settlementOf s d = some cst) :
    ∃ ed, lookupA s.resources d = some ed ∧ s.stateOf ed.promise = cst := by
  unfold settlementOf at h
  cases hl : lookupA s.resources d with
  | none =>
    rw [hl] at h
    exact absurd h (by simp)
  | some ed =>
    rw [hl] at h
    injection h with h
    exact ⟨ed, rfl, h⟩

theorem settlementOf_lookup {s : LState V E} {d : String} {ed : REntry V E}
    (hl : lookupA s.resources d = some ed) :
    settlementOf s d = some (s.stateOf ed.promise) := by
  unfold settlementOf
  rw [hl]

theorem depCell_settled {s : LState V E} (hg : Good s) {d : String} {c : Nat}
    {o : Outcome V E} (hdc : DepCell s d c) (hst : s.stateOf c = .settled o) :
    settlementOf s d = some (.settled o) := by
  obtain ⟨hb, hcase⟩ := hdc
  rcases hcase with ⟨e, he, hor⟩ | ⟨hpp, hke⟩
  · rcases hor with hc | hlink
    · rw [settlementOf_lookup he, ← hc, hst]
    · have := hg.link_settled c e.promise o hlink hst
      rw [settlementOf_lookup he, this]
  · rw [hg.ext_pending c hke] at hst
    exact absurd hst (by simp)

theorem zip_exists_mid {α β γ : Type} :
    ∀ {as : List α} {bs : List β} {cs : List γ},
      bs.length = as.length → cs.length = bs.length →
      ∀ {pr : α × γ}, pr ∈ as.zip cs →
      ∃ b, (pr.1, b) ∈ as.zip bs ∧ (b, pr.2) ∈ bs.zip cs := by
  intro as
  induction as with
  | nil =>
    intro bs cs hab hbc pr hpr
    simp at hpr
  | cons a as ih =>
    intro bs cs hab hbc pr hpr
    cases bs with
    | nil => simp at hab
    | cons b bs =>
      cases cs with
      | nil => simp at hbc
      | cons c cs =>
        rw [List.zip_cons_cons, List.mem_cons] at hpr
        rcases hpr with hpr | hpr
        · subst hpr
          exact ⟨b, by simp, by simp⟩
        · obtain ⟨b', h1, h2⟩ := ih (by simpa using hab) (by simpa using hbc) hpr
          exact ⟨b', List.mem_cons_of_mem _ h1, List.mem_cons_of_mem _ h2⟩

/-! ## One ascending pass settles a resource promise whose inputs are ready -/

theorem micro_step_keep {sk : LState V E} (k rid : Nat)
    {deps : List Nat} {ow : String} {p : List V → Except E V}
    (hkind : sk.kindOf rid = .allThen deps ow p)
    (hdlt : ∀ d ∈ deps, d < rid)
    (hreadyk : ∀ c ∈ deps, CellReady sk c)
    (hsettled : ∀ c ∈ deps, c < k → ∃ o, sk.stateOf c = .settled o)
    (hridk : rid < k → ∃ o, sk.stateOf rid = .settled o) :
    (∀ c ∈ deps, c < k + 1 → ∃ o, (stepMicro sk k).1.stateOf c = .settled o) ∧
    (rid < k + 1 → ∃ o, (stepMicro sk k).1.stateOf rid = .settled o) := by
  have hsm : Steps sk (stepMicro sk k).1 := steps_stepMicro
  constructor
  · intro c hc hck
    by_cases hcklt : c < k
    · obtain ⟨o, ho⟩ := hsettled c hc hcklt
      exact ⟨o, hsm.settled_mono c o ho⟩
    · have hck' : c = k := by omega
      subst hck'
      rcases hreadyk c hc with ⟨o, ho⟩ | ⟨t, o, hkl, hts⟩
      · exact ⟨o, hsm.settled_mono c o ho⟩
      · cases hcs : sk.stateOf c with
        | settled o' => exact ⟨o', hsm.settled_mono c o' hcs⟩
        | pending =>
          rw [stepMicro_adopt hcs hkl hts]
          exact ⟨o, setSt_stateOf_self (lt_of_kind_link hkl)⟩
  · intro hrk
    by_cases hrklt : rid < k
    · obtain ⟨o, ho⟩ := hridk hrklt
      exact ⟨o, hsm.settled_mono rid o ho⟩
    · have hrk' : rid = k := by omega
      subst hrk'
      cases hrs : sk.stateOf rid with
      | settled o' => exact ⟨o', hsm.settled_mono rid o' hrs⟩
      | pending =>
        cases hfr : firstRejected sk deps with
        | some e =>
          rw [stepMicro_reject hrs hkind hfr]
          exact ⟨.err e, setSt_stateOf_self (lt_of_kind_allThen hkind)⟩
        | none =>
          have hallok : ∀ d ∈ deps, ∃ v, sk.stateOf d = .settled (.ok v) := by
            intro d hd
            obtain ⟨o, ho⟩ := hsettled d hd (hdlt d hd)
            cases o with
            | ok v => exact ⟨v, ho⟩
            | err e =>
              obtain ⟨e', he'⟩ := firstRejected_isSome_of_mem hd ho
              rw [he'] at hfr
              exact absurd hfr (by simp)
          obtain ⟨vs, hvs⟩ := allFulfilled_exists_of_all hallok
          rw [stepMicro_fire hrs hkind hfr hvs]
          exact ⟨outcomeOf (p vs), setSt_stateOf_self (lt_of_kind_allThen hkind)⟩

theorem pass_settles {s : LState V E} (hg : Good s) {rid : Nat} {deps : List Nat}
    {ow : String} {p : List V → Except E V}
    (hk : s.kindOf rid = .allThen deps ow p)
    (hdlt : ∀ d ∈ deps, d < rid)
    (hready : ∀ d ∈ deps, CellReady s d) :
    ∃ o, (runFrom s (passActs s)).1.stateOf rid = .settled o := by
  have hrlt : rid < s.cells.length := lt_of_kind_allThen hk
  have main : ∀ k,
      Good (runFrom s ((List.range k).map Action.micro)).1 ∧
      Steps s (runFrom s ((List.range k).map Action.micro)).1 ∧
      (∀ c ∈ deps, c < k →
        ∃ o, (runFrom s ((List.range k).map Action.micro)).1.stateOf c = .settled o) ∧
      (rid < k →
        ∃ o, (runFrom s ((List.range k).map Action.micro)).1.stateOf rid = .settled o) := by
    intro k
    induction k with
    | zero =>
      exact ⟨hg, Steps.rfl, fun c hc hck => absurd hck (by omega),
        fun hrk => absurd hrk (by omega)⟩
    | succ k ih =>
      obtain ⟨hgk, hsk, hsettled, hridk⟩ := ih
      have hsplit : (List.range (k + 1)).map (Action.micro (V := V) (E := E)) =
          (List.range k).map Action.micro ++ [Action.micro k] := by
        rw [List.range_succ, List.map_append]
        rfl
      rw [hsplit, runFrom_append]
      have hkindk : (runFrom s ((List.range k).map Action.micro)).1.kindOf rid =
          .allThen deps ow p := hsk.kind_allThen rid deps ow p hk
      have hreadyk : ∀ c ∈ deps,
          CellReady (runFrom s ((List.range k).map Action.micro)).1 c :=
        fun c hc => cellReady_mono hsk (hready c hc)
      obtain ⟨ha, hb⟩ := micro_step_keep k rid hkindk hdlt hreadyk hsettled hridk
      exact ⟨good_stepMicro (i := k) hgk, Steps.comp hsk (steps_stepMicro (i := k)),
        ha, hb⟩
  obtain ⟨_, _, _, hrid⟩ := main s.cells.length
  exact hrid hrlt

/-! ## Run-level prefix facts -/

theorem runS_append {as ext : List (Action V E)} :
    runS (as ++ ext) = (runFrom (runS as) ext).1 := by
  unfold runS
  rw [runFrom_append]

theorem runEv_append {as ext : List (Action V E)} :
    runEv (as ++ ext) = runEv as ++ (runFrom (runS as) ext).2 := by
  unfold runEv
  show (runFrom LState.init (as ++ ext)).2 = _
  rw [runFrom_append]
  rfl

theorem countInvoke_le_one (as : List (Action V E)) (R : String) :
    countInvoke R (runEv as) ≤ 1 := by
  by_cases h : 1 ≤ countInvoke R (runEv as)
  · obtain ⟨_, _, _, _, hc⟩ := (trace_runS as).2 R h
    omega
  · omega

/-! ## Claim C1 -/

/-- C1: in every run, a declared resource's producer runs at most once; a
microtask that does invoke resource `R`'s producer with argument list
`args` can only do so when `R` is declared, `args` has exactly one entry
per name in `R.requires`, and the settlement of the `k`-th required name
is already fulfilled with exactly the `k`-th argument (positional binding
in `requires` order, whatever the declaration or settlement order was);
and when every dependency's settlement has succeeded, one ascending
microtask sweep makes the total invocation count exactly one. -/
theorem c1_producer_invoked_once_in_order (as : List (Action V E)) (R : String) :
    countInvoke R (runEv as) ≤ 1 ∧
    (∀ i args, Event.mk R args ∈ (stepMicro (runS as) i).2 →
      ∃ e, lookupA (runS as).resources R = some e ∧
        args.length = e.requires.length ∧
        ∀ pr ∈ e.requires.zip args,
          settlementOf (runS as) pr.1 = some (.settled (.ok pr.2))) ∧
    (∀ e, lookupA (runS as).resources R = some e →
      (∀ d ∈ e.requires, ∃ v, settlementOf (runS as) d = some (.settled (.ok v))) →
      countInvoke R (runEv (as ++ passActs (runS as))) = 1) := by
  have hg := good_runS as
  refine ⟨countInvoke_le_one as R, ?_, ?_⟩
  · intro i args hev
    rcases stepMicro_char (runS as) i with heq | ⟨t, o, hk, hst, hts, heq⟩ |
      ⟨deps, ow, p, e', hk, hst, hfr, heq⟩ | ⟨deps, ow, p, vs, hk, hst, hfr, haf, heq⟩
    · rw [heq] at hev
      exact absurd hev (by simp)
    · rw [heq] at hev
      exact absurd hev (by simp)
    · rw [heq] at hev
      exact absurd hev (by simp)
    · rw [heq] at hev
      simp only [List.mem_singleton, Event.mk.injEq] at hev
      obtain ⟨hro, hav⟩ := hev
      subst hro
      subst hav
      obtain ⟨e, he, hpr⟩ := hg.allThen_owner i deps R p hk
      obtain ⟨hbe, deps', hkind', hlend', hdep', _⟩ := hg.res_cell R e he
      rw [hpr] at hkind'
      rw [hk] at hkind'
      injection hkind' with hd1 hd2 hd3
      subst hd1
      obtain ⟨hlvs, hzvs⟩ := allFulfilled_some_spec haf
      refine ⟨e, he, by rw [hlvs]; exact hlend', ?_⟩
      intro pr hprm
      obtain ⟨c, h1, h2⟩ := zip_exists_mid hlend' (by rw [hlvs]) hprm
      exact depCell_settled hg (hdep' (pr.1, c) h1) (hzvs (c, pr.2) h2)
  · intro e he hdeps
    obtain ⟨hb, deps, hkind, hlend, hdep, hdlt⟩ := hg.res_cell R e he
    have hready : ∀ c ∈ deps, ∃ v, (runS as).stateOf c = .settled (.ok v) ∨
        ∃ t, (runS as).kindOf c = .link t ∧ (runS as).stateOf t = .settled (.ok v) := by
      intro c hc
      obtain ⟨d, hdzip⟩ := mem_zip_of_mem_right hlend hc
      have hdc : DepCell (runS as) d c := hdep (d, c) hdzip
      have hdm : d ∈ e.requires := (List.of_mem_zip hdzip).1
      obtain ⟨v, hv⟩ := hdeps d hdm
      obtain ⟨ed, hed, hst⟩ := settlementOf_eq_some hv
      obtain ⟨hcb, hcase⟩ := hdc
      rcases hcase with ⟨e', he', hor⟩ | ⟨hpp, hke⟩
      · have he'ed : ed = e' := by
          rw [hed] at he'
          injection he'
        rw [he'ed] at hst
        rcases hor with hceq | hlink
        · exact ⟨v, Or.inl (by rw [hceq]; exact hst)⟩
        · exact ⟨v, Or.inr ⟨e'.promise, hlink, hst⟩⟩
      · exact (hg.disj d (by rw [hed]; rfl) (by rw [hpp]; rfl)).elim
    have hreadyC : ∀ c ∈ deps, CellReady (runS as) c := by
      intro c hc
      obtain ⟨v, h⟩ := hready c hc
      rcases h with h | ⟨t, h1, h2⟩
      · exact Or.inl ⟨.ok v, h⟩
      · exact Or.inr ⟨t, .ok v, h1, h2⟩
    obtain ⟨o, ho⟩ := pass_settles hg hkind hdlt hreadyC
    have hseq : runS (as ++ passActs (runS as)) =
        (runFrom (runS as) (passActs (runS as))).1 := runS_append
    have hg2 := good_runS (as ++ passActs (runS as))
    have hsteps2 : Steps (runS as) (runS (as ++ passActs (runS as))) := by
      rw [hseq]
      exact runFrom_steps _ hg
    have hkind2 : (runS (as ++ passActs (runS as))).kindOf e.promise =
        .allThen deps R e.provider := hsteps2.kind_allThen _ _ _ _ hkind
    have hst2 : (runS (as ++ passActs (runS as))).stateOf e.promise = .settled o := by
      rw [hseq]
      exact ho
    obtain ⟨hsc2, hoi2⟩ := trace_runS (as ++ passActs (runS as))
    rcases hsc2 e.promise deps R e.provider o hkind2 hst2 with
      ⟨⟨d', e', hd', ho', hrej⟩, _⟩ | ⟨vs, _, _, _, hcount⟩
    · obtain ⟨w, hw⟩ := hready d' hd'
      rcases hw with hw | ⟨t, hkl, htw⟩
      · have hokw := hsteps2.settled_mono d' (.ok w) hw
        rw [hokw] at hrej
        injection hrej with h
        exact absurd h (by simp)
      · have hkl2 := hsteps2.kind_link d' t hkl
        have htw2 := hsteps2.settled_mono t (.ok w) htw
        have herr := hg2.link_settled d' t (.err e') hkl2 hrej
        rw [htw2] at herr
        injection herr with h
        exact absurd h (by simp)
    · have hle := countInvoke_le_one (as ++ passActs (runS as)) R
      omega

/-- C1 witness: the theorem applied to the concrete scenario `demoAB`
(`A` requires `B`, `B` produces `5`): the microtask on `A`'s promise cell
invokes its producer with exactly `[5]`, and the full sweep makes the
invocation count exactly one. -/
theorem c1_producer_invoked_once_in_order_witness :
    (∃ e, lookupA (runS (demoAB ++ [Action.micro 0])).resources "A" = some e ∧
      ([5] : List Nat).length = e.requires.length ∧
      ∀ pr ∈ e.requires.zip [5],
        settlementOf (runS (demoAB ++ [Action.micro 0])) pr.1
          = some (.settled (.ok pr.2))) ∧
    countInvoke "A" (runEv (demoAB ++ passActs (runS demoAB))) = 1 :=
  ⟨(c1_producer_invoked_once_in_order (demoAB ++ [Action.micro 0]) "A").2.1 1 [5]
     (by decide),
   (c1_producer_invoked_once_in_order demoAB "A").2.2 ⟨["B"], pConst 7, 1⟩ rfl
     (by
       intro d hd
       have hd' : d = "B" := by simpa using hd
       subst hd'
       exact ⟨5, by decide⟩)⟩

/-! ## A pass makes a resolved slot adopt its settled target -/

theorem pass_adopts {s : LState V E} (hg : Good s) {c t : Nat} {o : Outcome V E}
    (hk : s.kindOf c = .link t) (hts : s.stateOf t = .settled o)
    (hcb : c < s.cells.length) :
    (runFrom s (passActs s)).1.stateOf c = .settled o := by
  have main : ∀ k,
      Good (runFrom s ((List.range k).map Action.micro)).1 ∧
      Steps s (runFrom s ((List.range k).map Action.micro)).1 ∧
      (c < k → (runFrom s ((List.range k).map Action.micro)).1.stateOf c = .settled o) := by
    intro k
    induction k with
    | zero => exact ⟨hg, Steps.rfl, fun h => absurd h (by omega)⟩
    | succ k ih =>
      obtain ⟨hgk, hsk, hck⟩ := ih
      have hsplit : (List.range (k + 1)).map (Action.micro (V := V) (E := E)) =
          (List.range k).map Action.micro ++ [Action.micro k] := by
        rw [List.range_succ, List.map_append]
        rfl
      rw [hsplit, runFrom_append]
      refine ⟨good_stepMicro (i := k) hgk,
        Steps.comp hsk (steps_stepMicro (i := k)), ?_⟩
      intro hcklt
      by_cases hck' : c < k
      · exact (steps_stepMicro (i := k)).settled_mono c _ (hck hck')
      · have hceq : c = k := by omega
        subst hceq
        have hkk : (runFrom s ((List.range c).map Action.micro)).1.kindOf c = .link t :=
          hsk.kind_link c t hk
        have htsk := hsk.settled_mono t o hts
        cases hcs : (runFrom s ((List.range c).map Action.micro)).1.stateOf c with
        | pending =>
          show (stepMicro (runFrom s ((List.range c).map Action.micro)).1 c).1.stateOf c = _
          rw [stepMicro_adopt hcs hkk htsk]
          exact setSt_stateOf_self (lt_of_kind_link hkk)
        | settled o' =>
          have h2 := hgk.link_settled c t o' hkk hcs
          rw [htsk] at h2
          have ho' : o' = o := (CState.settled.inj h2).symm
          have hfin := (steps_stepMicro (i := c)).settled_mono c o' hcs
          show (stepMicro (runFrom s ((List.range c).map Action.micro)).1 c).1.stateOf c = _
          rw [hfin, ho']
  obtain ⟨_, _, hc3⟩ := main s.cells.length
  exact hc3 hcb

/-! ## Claim C2 -/

/-- C2: requesting a name's eventual value before the name is declared and
then declaring it later gives the earlier caller the declared resource's
own settlement outcome: whenever the resource's settlement is a settled
outcome `o` — a fulfillment value or a failure alike — the promise handed
out by the earlier `promiseFor` call is still pending or already carries
exactly `o`, and after one ascending microtask sweep it carries exactly
`o`. -/
theorem c2_forward_reference (as1 as2 : List (Action V E)) (x : String)
    (hx : lookupA (runS as1).resources x = none) (o : Outcome V E)
    (hsx : settlementOf (runS (as1 ++ [Action.request x] ++ as2)) x
      = some (.settled o)) :
    ((runS (as1 ++ [Action.request x] ++ as2)).stateOf
        (promiseFor (runS as1) x).1 = .pending ∨
     (runS (as1 ++ [Action.request x] ++ as2)).stateOf
        (promiseFor (runS as1) x).1 = .settled o) ∧
    (runS (as1 ++ [Action.request x] ++ as2 ++
        passActs (runS (as1 ++ [Action.request x] ++ as2)))).stateOf
      (promiseFor (runS as1) x).1 = .settled o := by
  have hg1 := good_runS as1
  obtain ⟨hgR, hsR, hresR, hmonoR, hdcR⟩ := promiseFor_spec x hg1
  have hseq : runS (as1 ++ [Action.request x] ++ as2) =
      (runFrom (promiseFor (runS as1) x).2 as2).1 := by
    rw [runS_append, runS_append]
    rfl
  have hgS : Good (runS (as1 ++ [Action.request x] ++ as2)) := good_runS _
  have hdcS : DepCell (runS (as1 ++ [Action.request x] ++ as2)) x
      (promiseFor (runS as1) x).1 := by
    rw [hseq]
    exact runFrom_depCell as2 hgR hdcR
  obtain ⟨e, he, hst⟩ := settlementOf_eq_some hsx
  obtain ⟨hcb, hcase⟩ := hdcS
  rcases hcase with ⟨e', he', hor⟩ | ⟨hpp, hke⟩
  · have hee : e' = e := Option.some.inj (he'.symm.trans he)
    rw [hee] at hor
    constructor
    · rcases hor with hceq | hlink
      · exact Or.inr (by rw [hceq]; exact hst)
      · cases hcs : (runS (as1 ++ [Action.request x] ++ as2)).stateOf
            (promiseFor (runS as1) x).1 with
        | pending => exact Or.inl rfl
        | settled o' =>
          have h2 := hgS.link_settled _ e.promise o' hlink hcs
          rw [hst] at h2
          have ho' : o' = o := (CState.settled.inj h2).symm
          exact Or.inr (by rw [ho'])
    · rw [runS_append]
      rcases hor with hceq | hlink
      · have hsp := runFrom_steps (passActs (runS (as1 ++ [Action.request x] ++ as2))) hgS
        exact hsp.settled_mono _ o (by rw [hceq]; exact hst)
      · exact pass_adopts hgS hlink hst hcb
  · exact (hgS.disj x (by rw [he]; rfl) (by rw [hpp]; rfl)).elim

/-- C2 witness: requesting `x` on a fresh registry, then declaring `x`
with a producer returning `9` and settling it: the earlier promise is
still pending before the adoption microtask and carries `9` after the
sweep. -/
theorem c2_forward_reference_witness :
    ((runS ([] ++ [Action.request "x"] ++
        [Action.declare "x" [] (pConst 9), Action.micro 1])).stateOf
      (promiseFor (runS ([] : List (Action Nat Nat))) "x").1 = .pending ∨
     (runS ([] ++ [Action.request "x"] ++
        [Action.declare "x" [] (pConst 9), Action.micro 1])).stateOf
      (promiseFor (runS ([] : List (Action Nat Nat))) "x").1 = .settled (.ok 9)) ∧
    (runS ([] ++ [Action.request "x"] ++
        [Action.declare "x" [] (pConst 9), Action.micro 1] ++
        passActs (runS ([] ++ [Action.request "x"] ++
          [Action.declare "x" [] (pConst 9), Action.micro 1])))).stateOf
      (promiseFor (runS ([] : List (Action Nat Nat))) "x").1 = .settled (.ok 9) :=
  c2_forward_reference [] [Action.declare "x" [] (pConst 9), Action.micro 1] "x"
    rfl (.ok 9) (by decide)

/-! ## Claim C3 -/

/-- C3, evaluation of the code at the claim's own scenario: declaring
`thing1` (requiring `req1`, `req2`), `req1` and `thing2` (requiring
`req1`) and then iterating the registry yields only `req1, thing1` — the
iterator computes `done: resources.length < 1` after `shift()` has already
removed the element it returns, so the `for...of` consumer sees
`done: true` together with the last resource and discards it; `thing2`
(the last name in sorted order) is silently dropped, contradicting the
claimed `req1, thing1, thing2`. -/
theorem c3_iteration_drops_last :
    iterNames (runS iterScenario) = ["req1", "thing1"] := by decide

/-! ## Claim C6 -/

/-- C6: when a resource named `n` is already declared, declaring a second
definition with the same name throws DuplicateName synchronously and
leaves the whole registry state — the first resource, every settlement
cell, and the outstanding map — exactly as it was: the duplicate check
precedes every mutation in `declareResource`. -/
theorem c6_duplicate_name (s : LState V E) (n : String) (req : List String)
    (p : List V → Except E V) (h : (lookupA s.resources n).isSome) :
    declareResource s n req p = .error .duplicateName ∧
    stepA s (.declare n req p) = (s, []) := by
  refine ⟨declareResource_dup h, ?_⟩
  show (match declareResource s n req p with
    | .ok s' => (s', ([] : List (Event V)))
    | .error _ => (s, [])) = (s, [])
  rw [declareResource_dup h]

/-- C6 witness: the theorem applied to a registry that already holds a
resource named `one`. -/
theorem c6_duplicate_name_witness :
    declareResource (runS [Action.declare "one" [] (pConst 0)]) "one" [] (pConst 1)
      = .error .duplicateName ∧
    stepA (runS [Action.declare "one" [] (pConst 0)])
      (.declare "one" [] (pConst 1)) = (runS [Action.declare "one" [] (pConst 0)], []) :=
  ⟨(c6_duplicate_name (runS [Action.declare "one" [] (pConst 0)]) "one" []
      (pConst 1) (by decide)).1,
   (c6_duplicate_name (runS [Action.declare "one" [] (pConst 0)]) "one" []
      (pConst 1) (by decide)).2⟩

/-! ## Claim C8 -/

/-- C8: the `undeclared` getter reports exactly the names referenced as
dependencies but not declared: a fresh registry reports the empty list;
after declaring `thing1` requiring `req1` and `req2` it reports exactly
those two; after additionally declaring `req1` it reports exactly
`req2`. -/
theorem c8_undeclared_tracking :
    undeclaredOf (runS ([] : List (Action Nat Nat))) = [] ∧
    undeclaredOf (runS [Action.declare "thing1" ["req1", "req2"] (pConst 0)])
      = ["req1", "req2"] ∧
    undeclaredOf (runS [Action.declare "thing1" ["req1", "req2"] (pConst 0),
      Action.declare "req1" [] (pConst 0)]) = ["req2"] := by
  refine ⟨rfl, by decide, by decide⟩

/-! ## Claim C9 -/

/-- C9: after every sequence of declare, request and microtask operations,
each name appears at most once in the declared-resource map, at most once
in the outstanding pending-slot map, and never in both at once — declaring
a name deletes its pending slot in the same synchronous step in which the
resource is registered. -/
theorem c9_registry_mappings_disjoint (as : List (Action V E)) :
    ((runS as).resources.map (fun q => q.1)).Nodup ∧
    ((runS as).promises.map (fun q => q.1)).Nodup ∧
    (∀ n, ¬((lookupA (runS as).resources n).isSome ∧
            (lookupA (runS as).promises n).isSome)) :=
  ⟨(good_runS as).res_nodup, (good_runS as).prom_nodup,
   fun n h => (good_runS as).disj n h.1 h.2⟩

/-! ## Failure propagation machinery -/

theorem mem_zip_of_mem_left {α β : Type} {a : α} :
    ∀ {as : List α} {bs : List β}, bs.length = as.length → a ∈ as →
      ∃ b, (a, b) ∈ as.zip bs := by
  intro as
  induction as with
  | nil =>
    intro bs hlen ha
    exact absurd ha (by simp)
  | cons x xs ih =>
    intro bs hlen ha
    cases bs with
    | nil => exact absurd hlen (by simp)
    | cons y ys =>
      rw [List.mem_cons] at ha
      rcases ha with ha | ha
      · subst ha
        exact ⟨y, by rw [List.zip_cons_cons]; exact List.mem_cons_self _ _⟩
      · obtain ⟨b, hb⟩ := ih (by simpa using hlen) ha
        exact ⟨b, by rw [List.zip_cons_cons]; exact List.mem_cons_of_mem _ hb⟩

theorem settled_deps_ok (as : List (Action V E)) {X : String} {eX : REntry V E}
    {o : Outcome V E}
    (heX : lookupA (runS as).resources X = some eX)
    (hstX : (runS as).stateOf eX.promise = .settled o)
    (hside : (∃ v, o = .ok v) ∨ 1 ≤ countInvoke X (runEv as)) :
    ∀ Y ∈ eX.requires, ∃ w, settlementOf (runS as) Y = some (.settled (.ok w)) := by
  have hg := good_runS as
  obtain ⟨hb, deps, hkind, hlend, hdep, _⟩ := hg.res_cell X eX heX
  obtain ⟨hsc, _⟩ := trace_runS as
  rcases hsc eX.promise deps X eX.provider o hkind hstX with
    ⟨⟨d', e', hd', hoe, hrej⟩, hcnt0⟩ | ⟨vs, hlvs, hallok, _, _⟩
  · rcases hside with ⟨v, hov⟩ | hcount
    · rw [hov] at hoe
      exact absurd hoe (by simp)
    · exact absurd hcnt0 (by omega)
  · intro Y hY
    obtain ⟨c, hYc⟩ := mem_zip_of_mem_left hlend hY
    have hcd : c ∈ deps := (List.of_mem_zip hYc).2
    obtain ⟨w, hcw⟩ := mem_zip_of_mem_left hlvs hcd
    exact ⟨w, depCell_settled hg (hdep (Y, c) hYc) (hallok (c, w) hcw)⟩

theorem fulfilled_down (as : List (Action V E)) {X Y : String} {v : V}
    (hX : settlementOf (runS as) X = some (.settled (.ok v)))
    (hY : DirectDep (runS as) X Y) :
    ∃ w, settlementOf (runS as) Y = some (.settled (.ok w)) := by
  obtain ⟨eX, heX, hstX⟩ := settlementOf_eq_some hX
  obtain ⟨eX', heX', hYm⟩ := hY
  have he : eX' = eX := by
    rw [heX] at heX'
    exact (Option.some.inj heX').symm
  subst he
  exact settled_deps_ok as heX hstX (Or.inl ⟨v, rfl⟩) Y hYm

theorem never_invoked_aux (as : List (Action V E)) {R : String}
    (hdirect : ∀ Y, DirectDep (runS as) R Y →
      ∃ w, settlementOf (runS as) Y = some (.settled (.ok w))) :
    ∀ F, Relation.TransGen (DirectDep (runS as)) R F →
      ∃ w, settlementOf (runS as) F = some (.settled (.ok w)) := by
  intro F hTG
  induction hTG with
  | single h1 => exact hdirect _ h1
  | tail h1 h2 ih =>
    obtain ⟨w, hw⟩ := ih
    exact fulfilled_down as hw h2

theorem directDep_mono {s s' : LState V E} (hs : Steps s s') {a b : String}
    (h : DirectDep s a b) : DirectDep s' a b := by
  obtain ⟨e, he, hb⟩ := h
  exact ⟨e, hs.res_mono a e he, hb⟩

theorem micro_step_reject {sk : LState V E} (hgk : Good sk) (k rid c : Nat)
    {deps : List Nat} {ow : String} {p : List V → Except E V}
    (hkind : sk.kindOf rid = .allThen deps ow p)
    (hc : c ∈ deps)
    (hclt : c < rid)
    (hcready : (∃ e, sk.stateOf c = .settled (.err e)) ∨
      (∃ t e, sk.kindOf c = .link t ∧ sk.stateOf t = .settled (.err e)))
    (hcsek : c < k → ∃ e, sk.stateOf c = .settled (.err e))
    (hridk : rid < k → ∃ o, sk.stateOf rid = .settled o) :
    (c < k + 1 → ∃ e, (stepMicro sk k).1.stateOf c = .settled (.err e)) ∧
    (rid < k + 1 → ∃ o, (stepMicro sk k).1.stateOf rid = .settled o) := by
  have hsm : Steps sk (stepMicro sk k).1 := steps_stepMicro
  constructor
  · intro hck
    by_cases hcklt : c < k
    · obtain ⟨e, he⟩ := hcsek hcklt
      exact ⟨e, hsm.settled_mono c _ he⟩
    · have hck' : c = k := by omega
      subst hck'
      rcases hcready with ⟨e, he⟩ | ⟨t, e, hkl, hts⟩
      · exact ⟨e, hsm.settled_mono c _ he⟩
      · cases hcs : sk.stateOf c with
        | pending =>
          rw [stepMicro_adopt hcs hkl hts]
          exact ⟨e, setSt_stateOf_self (lt_of_kind_link hkl)⟩
        | settled o' =>
          have h2 := hgk.link_settled c t o' hkl hcs
          rw [hts] at h2
          have ho' : o' = .err e := (CState.settled.inj h2).symm
          subst ho'
          exact ⟨e, hsm.settled_mono c _ hcs⟩
  · intro hrk
    by_cases hrklt : rid < k
    · obtain ⟨o, ho⟩ := hridk hrklt
      exact ⟨o, hsm.settled_mono rid o ho⟩
    · have hrk' : rid = k := by omega
      subst hrk'
      cases hrs : sk.stateOf rid with
      | settled o' => exact ⟨o', hsm.settled_mono rid o' hrs⟩
      | pending =>
        obtain ⟨e, he⟩ := hcsek hclt
        obtain ⟨e', hfr⟩ := firstRejected_isSome_of_mem hc he
        rw [stepMicro_reject hrs hkind hfr]
        exact ⟨.err e', setSt_stateOf_self (lt_of_kind_allThen hkind)⟩

theorem pass_settles_reject {s : LState V E} (hg : Good s) {rid c : Nat}
    {deps : List Nat} {ow : String} {p : List V → Except E V}
    (hk : s.kindOf rid = .allThen deps ow p)
    (hdlt : ∀ d ∈ deps, d < rid)
    (hc : c ∈ deps)
    (hcready : (∃ e, s.stateOf c = .settled (.err e)) ∨
      (∃ t e, s.kindOf c = .link t ∧ s.stateOf t = .settled (.err e))) :
    (∃ o, (runFrom s (passActs s)).1.stateOf rid = .settled o) ∧
    (∃ e, (runFrom s (passActs s)).1.stateOf c = .settled (.err e)) := by
  have hrlt : rid < s.cells.length := lt_of_kind_allThen hk
  have hclt : c < rid := hdlt c hc
  have main : ∀ k,
      Good (runFrom s ((List.range k).map Action.micro)).1 ∧
      Steps s (runFrom s ((List.range k).map Action.micro)).1 ∧
      (c < k → ∃ e, (runFrom s ((List.range k).map Action.micro)).1.stateOf c
        = .settled (.err e)) ∧
      (rid < k → ∃ o, (runFrom s ((List.range k).map Action.micro)).1.stateOf rid
        = .settled o) := by
    intro k
    induction k with
    | zero =>
      exact ⟨hg, Steps.rfl, fun hck => absurd hck (by omega),
        fun hrk => absurd hrk (by omega)⟩
    | succ k ih =>
      obtain ⟨hgk, hsk, hcse, hride⟩ := ih
      have hsplit : (List.range (k + 1)).map (Action.micro (V := V) (E := E)) =
          (List.range k).map Action.micro ++ [Action.micro k] := by
        rw [List.range_succ, List.map_append]
        rfl
      rw [hsplit, runFrom_append]
      have hkindk : (runFrom s ((List.range k).map Action.micro)).1.kindOf rid =
          .allThen deps ow p := hsk.kind_allThen rid deps ow p hk
      have hcreadyk : (∃ e, (runFrom s ((List.range k).map Action.micro)).1.stateOf c
            = .settled (.err e)) ∨
          (∃ t e, (runFrom s ((List.range k).map Action.micro)).1.kindOf c = .link t ∧
            (runFrom s ((List.range k).map Action.micro)).1.stateOf t
              = .settled (.err e)) := by
        rcases hcready with ⟨e, he⟩ | ⟨t, e, hkl, hts⟩
        · exact Or.inl ⟨e, hsk.settled_mono c _ he⟩
        · exact Or.inr ⟨t, e, hsk.kind_link c t hkl, hsk.settled_mono t _ hts⟩
      obtain ⟨ha, hb⟩ := micro_step_reject hgk k rid c hkindk hc hclt hcreadyk hcse hride
      exact ⟨good_stepMicro (i := k) hgk, Steps.comp hsk (steps_stepMicro (i := k)),
        ha, hb⟩
  obtain ⟨_, _, hcf, hrf⟩ := main s.cells.length
  exact ⟨hrf hrlt, hcf (by omega)⟩

theorem one_step_fails (as : List (Action V E)) {R d : String} {e : E}
    (hRd : DirectDep (runS as) R d)
    (hd : settlementOf (runS as) d = some (.settled (.err e))) :
    ∃ e', settlementOf (runS (as ++ passActs (runS as))) R
      = some (.settled (.err e')) := by
  have hg := good_runS as
  obtain ⟨eR, heR, hdm⟩ := hRd
  obtain ⟨hb, deps, hkind, hlend, hdep, hdlt⟩ := hg.res_cell R eR heR
  obtain ⟨c, hcz⟩ := mem_zip_of_mem_left hlend hdm
  have hcdeps : c ∈ deps := (List.of_mem_zip hcz).2
  have hdc : DepCell (runS as) d c := hdep (d, c) hcz
  obtain ⟨ed, hed, hsted⟩ := settlementOf_eq_some hd
  obtain ⟨hcb, hcase⟩ := hdc
  have hcready : (∃ e0, (runS as).stateOf c = .settled (.err e0)) ∨
      (∃ t e0, (runS as).kindOf c = .link t ∧
        (runS as).stateOf t = .settled (.err e0)) := by
    rcases hcase with ⟨e', he', hor⟩ | ⟨hpp, hke⟩
    · have hee : ed = e' := by
        rw [hed] at he'
        exact Option.some.inj he'
      rw [hee] at hsted
      rcases hor with hceq | hlink
      · exact Or.inl ⟨e, by rw [hceq]; exact hsted⟩
      · exact Or.inr ⟨e'.promise, e, hlink, hsted⟩
    · exact (hg.disj d (by rw [hed]; rfl) (by rw [hpp]; rfl)).elim
  obtain ⟨⟨o, hro⟩, ⟨e1, hc1⟩⟩ := pass_settles_reject hg hkind hdlt hcdeps hcready
  have hseq : runS (as ++ passActs (runS as)) =
      (runFrom (runS as) (passActs (runS as))).1 := runS_append
  have hsteps2 : Steps (runS as) (runS (as ++ passActs (runS as))) := by
    rw [hseq]
    exact runFrom_steps _ hg
  have hkind2 : (runS (as ++ passActs (runS as))).kindOf eR.promise =
      .allThen deps R eR.provider := hsteps2.kind_allThen _ _ _ _ hkind
  have hst2 : (runS (as ++ passActs (runS as))).stateOf eR.promise = .settled o := by
    rw [hseq]
    exact hro
  obtain ⟨hsc2, _⟩ := trace_runS (as ++ passActs (runS as))
  rcases hsc2 eR.promise deps R eR.provider o hkind2 hst2 with
    ⟨⟨d', e'', hd', hoe, _⟩, _⟩ | ⟨vs, hlvs, hallok, _, _⟩
  · refine ⟨e'', ?_⟩
    rw [settlementOf_lookup (hsteps2.res_mono R eR heR), hst2, hoe]
  · obtain ⟨w, hcw⟩ := mem_zip_of_mem_left hlvs hcdeps
    have hcok := hallok (c, w) hcw
    have hc1' : (runS (as ++ passActs (runS as))).stateOf c = .settled (.err e1) := by
      rw [hseq]
      exact hc1
    rw [hc1'] at hcok
    injection hcok with h
    exact absurd h (by simp)

theorem eventually_fails (as : List (Action V E)) {F : String} {e : E}
    (hF : settlementOf (runS as) F = some (.settled (.err e))) :
    ∀ R, Relation.TransGen (DirectDep (runS as)) R F →
      ∃ ext e', settlementOf (runS (as ++ ext)) R = some (.settled (.err e')) := by
  intro R hTG
  induction hTG using Relation.TransGen.head_induction_on with
  | base h1 =>
    obtain ⟨e', he'⟩ := one_step_fails as h1 hF
    exact ⟨passActs (runS as), e', he'⟩
  | ih h1 h2 ih3 =>
    obtain ⟨ext1, e1, hmid⟩ := ih3
    have hsteps : Steps (runS as) (runS (as ++ ext1)) := by
      rw [runS_append]
      exact runFrom_steps _ (good_runS as)
    have h1' := directDep_mono hsteps h1
    obtain ⟨e2, h2f⟩ := one_step_fails (as ++ ext1) h1' hmid
    rw [List.append_assoc] at h2f
    exact ⟨ext1 ++ passActs (runS (as ++ ext1)), e2, h2f⟩

/-! ## Claim C5 -/

/-- C5 counterexample: in the run `twoFailures`, `A` directly requires
`["B", "C"]`; `C`'s settlement fails with reason `2`, yet `A`'s settlement
fails with reason `1` — the reason of the first rejected dependency in
`requires` order, not `C`'s reason — so a resource depending on a resource
that failed with reason `E` need not fail with that same `E`; `A`'s
producer is still never invoked. -/
theorem c5_counterexample :
    requiresOf (runS twoFailures) "A" = some ["B", "C"] ∧
    settlementOf (runS twoFailures) "C" = some (.settled (.err 2)) ∧
    settlementOf (runS twoFailures) "A" = some (.settled (.err 1)) ∧
    settlementOf (runS twoFailures) "A" ≠ some (.settled (.err 2)) ∧
    countInvoke "A" (runEv twoFailures) = 0 := by
  refine ⟨by decide, by decide, by decide, by decide, by decide⟩

/-- C5, amended: (a) a resource depending directly or transitively on a
resource whose settlement failed never has its own producer invoked;
(b) a failed settlement's reason is propagated unwrapped: it is exactly
the rejection reason of some direct dependency's settlement, or exactly
the error thrown by the resource's own producer — but when several
dependencies fail it is the reason of the first rejected dependency cell
in `requires` order, not necessarily that of every failed dependency;
(c) a settled settlement is permanent and memoized: every extension of the
run observes the identical outcome, with no retry; (d) a resource
depending directly or transitively on a failed resource does fail: some
extension by microtask sweeps rejects its settlement. -/
theorem c5_failure_propagation (as : List (Action V E)) :
    (∀ R F e, TransDep (runS as) R F →
      settlementOf (runS as) F = some (.settled (.err e)) →
      countInvoke R (runEv as) = 0) ∧
    (∀ R e, settlementOf (runS as) R = some (.settled (.err e)) →
      ((∃ d, DirectDep (runS as) R d ∧
          settlementOf (runS as) d = some (.settled (.err e))) ∨
        (∃ en vs, lookupA (runS as).resources R = some en ∧
          en.provider vs = .error e))) ∧
    (∀ R o ext, settlementOf (runS as) R = some (.settled o) →
      settlementOf (runS (as ++ ext)) R = some (.settled o)) ∧
    (∀ R F e, TransDep (runS as) R F →
      settlementOf (runS as) F = some (.settled (.err e)) →
      ∃ ext e', settlementOf (runS (as ++ ext)) R = some (.settled (.err e'))) := by
  refine ⟨?_, ?_, ?_, ?_⟩
  · intro R F e hTD hF
    by_contra hc
    have hcount : 1 ≤ countInvoke R (runEv as) := by omega
    obtain ⟨eR, o, heR, hstR, _⟩ := (trace_runS as).2 R hcount
    have hdirect : ∀ Y, DirectDep (runS as) R Y →
        ∃ w, settlementOf (runS as) Y = some (.settled (.ok w)) := by
      intro Y hY
      obtain ⟨eR', heR', hYm⟩ := hY
      have he : eR' = eR := by
        rw [heR] at heR'
        exact (Option.some.inj heR').symm
      subst he
      exact settled_deps_ok as heR hstR (Or.inr hcount) Y hYm
    obtain ⟨w, hw⟩ := never_invoked_aux as hdirect F hTD
    rw [hF] at hw
    exact absurd hw (by simp)
  · intro R e hR
    obtain ⟨eR, heR, hstR⟩ := settlementOf_eq_some hR
    have hg := good_runS as
    obtain ⟨hb, deps, hkind, hlend, hdep, hdlt⟩ := hg.res_cell R eR heR
    obtain ⟨hsc, _⟩ := trace_runS as
    rcases hsc eR.promise deps R eR.provider (.err e) hkind hstR with
      ⟨⟨d', e', hd', hoe, hrej⟩, _⟩ | ⟨vs, hlvs, _, hoeq, _⟩
    · have hee : e' = e := by
        injection hoe with h
        exact h.symm
      subst hee
      obtain ⟨dn, hdnz⟩ := mem_zip_of_mem_right hlend hd'
      refine Or.inl ⟨dn, ⟨eR, heR, (List.of_mem_zip hdnz).1⟩, ?_⟩
      exact depCell_settled hg (hdep (dn, d') hdnz) hrej
    · cases hpv : eR.provider vs with
      | ok v =>
        rw [hpv] at hoeq
        exact absurd hoeq (by simp [outcomeOf])
      | error e'' =>
        rw [hpv] at hoeq
        have he'' : e'' = e := by
          simp only [outcomeOf] at hoeq
          injection hoeq with h
          exact h.symm
        subst he''
        exact Or.inr ⟨eR, vs, heR, hpv⟩
  · intro R o ext hR
    obtain ⟨eR, heR, hstR⟩ := settlementOf_eq_some hR
    have hsteps : Steps (runS as) (runS (as ++ ext)) := by
      rw [runS_append]
      exact runFrom_steps ext (good_runS as)
    rw [settlementOf_lookup (hsteps.res_mono R eR heR)]
    rw [hsteps.settled_mono eR.promise o hstR]
  · intro R F e hTD hF
    exact eventually_fails as hF R hTD

/-- C5 witness: the amended theorem applied to the run `failChain` (`D`
requires `B`, whose producer throws `7`): `D`'s producer is never
invoked, `D`'s rejection reason `7` is exactly the one propagated from
the direct dependency `B`, the rejected settlement survives an extension
of the run unchanged, and the transitive failure makes `D`'s settlement
reject under some extension. -/
theorem c5_failure_propagation_witness :
    countInvoke "D" (runEv failChain) = 0 ∧
    ((∃ d, DirectDep (runS failChain) "D" d ∧
        settlementOf (runS failChain) d = some (.settled (.err 7))) ∨
      (∃ en vs, lookupA (runS failChain).resources "D" = some en ∧
        en.provider vs = .error 7)) ∧
    settlementOf (runS (failChain ++ [Action.micro 0])) "D"
      = some (.settled (.err 7)) ∧
    (∃ ext e', settlementOf (runS (failChain ++ ext)) "D"
      = some (.settled (.err e'))) :=
  ⟨(c5_failure_propagation failChain).1 "D" "B" 7
     (Relation.TransGen.single ⟨⟨["B"], pConst 3, 1⟩, rfl, by decide⟩) (by decide),
   (c5_failure_propagation failChain).2.1 "D" 7 (by decide),
   (c5_failure_propagation failChain).2.2.1 "D" (.err 7) [Action.micro 0] (by decide),
   (c5_failure_propagation failChain).2.2.2 "D" "B" 7
     (Relation.TransGen.single ⟨⟨["B"], pConst 3, 1⟩, rfl, by decide⟩) (by decide)⟩

end Bootloader
